import Mathlib

/-!
Verification development for the bucket executor of
`src/packages/dataplanner/src/engine/executeBucket.ts` together with the
error-value module (`error.js`) bundled in the same source file.

The embedding below translates the TypeScript source into Lean:

* machine values inside columns become the inductive `Cell`; a promise entry
  of a column is represented by its eventual settlement (`Cell.fulfilled` /
  `Cell.rejected`), which is exactly what `Promise.allSettled` observes;
* the mutable bucket (`store`, `hasErrors`, `isComplete`) plus the scheduler
  bookkeeping (`pendingSteps`, `inProgressSteps`) become `SchedState`;
* the mutually recursive closures `executeStep` / `completedStep` /
  `reallyCompletedStep` and the two dispatch loops become one fuel-indexed
  structurally recursive interpreter `engine`, with one `Call` constructor
  per closure; faults that in JS escape as exceptions or promise rejections
  are `ERes.fault`;
* asynchronous settlement is sequentialised: a step's future is settled at
  the moment its `.then` continuation would run.  A separate nondeterministic
  transition system (namespace `Dispatch`) models the interleavings of the
  scheduler for the dispatch-ordering claims.

The one piece of repository code referenced by `executeBucket.ts` but not
present under `src/` is `arrayOfLength` from `../utils.js`; it is modelled
from the spec (see its doc comment).
-/

/-- Payload of a JavaScript exception / promise-rejection reason.  `user`
stands for an arbitrary error raised by a step; the remaining constructors
are the `new Error(...)` values thrown by the executor itself. -/
inductive JsErr where
  | user (n : Nat)
  | shapeNonArray (stepId : Nat)
  | shapeBadLength (stepId got expected : Nat)
  | todoListItem
  | todoMutationField
  | todoPolymorphic
  | rootChild
  | stepsIncomplete
deriving DecidableEq, Repr

/-- `error.js`: `class _CrystalError { originalError }`.  The constructor of
the source takes the original error only; there is no field retaining an
originating step id. -/
structure CrystalError where
  originalError : JsErr
deriving DecidableEq, Repr

/-- `error.js`: `newCrystalError(error)` — the single constructor of error
values.  Note that in the source it has exactly one parameter. -/
def newCrystalError (error : JsErr) : CrystalError :=
  ⟨error⟩

/-- `executeBucket.ts` calls `newCrystalError(reason, step.id)` with two
arguments, but the `error.js` bundled in this repository declares
`newCrystalError(error)` with one parameter; under JavaScript semantics the
extra argument is discarded.  This definition embeds those call sites. -/
def newCrystalErrorCalledWithStepId (error : JsErr) (stepId : Nat) : CrystalError :=
  newCrystalError error

/-- One entry of a column.  `value` is an ordinary datum, `error` a crystal
error travelling as a datum, `fulfilled n` a promise entry that settles
fulfilled with `n`, `rejected e` a promise entry that settles rejected with
reason `e`, and `undefined` the JavaScript `undefined` produced by reading past
the end of an array. -/
inductive Cell where
  | value (n : Nat)
  | error (e : CrystalError)
  | fulfilled (n : Nat)
  | rejected (e : JsErr)
  | undefined
deriving DecidableEq, Repr

/-- `error.js`: `isCrystalError(value)` — the single discriminator, here on
column entries. -/
def isCrystalError (c : Cell) : Bool :=
  match c with
  | .error _ => true
  | _ => false

/-- What `Promise.allSettled` turns one column entry into: fulfilled entries
keep their value, rejected entries are left to the caller (see
`completedStep`), plain values and already-present errors pass through. -/
def settleCell (c : Cell) : Cell :=
  match c with
  | .value n => .value n
  | .error e => .error e
  | .fulfilled n => .value n
  | .rejected e => .error (newCrystalError e)
  | .undefined => .undefined

/-- Whether settling this entry observes a rejection (the branch of
`completedStep` that sets `bucket.hasErrors = true`), in which case the
rejected reason is wrapped by `newCrystalError(t.reason, finishedStep.id)`. -/
def cellRejects (c : Cell) : Bool :=
  match c with
  | .rejected _ => true
  | _ => false

/-- A cell that contains no pending promise: settling it is the identity. -/
def cellSettled (c : Cell) : Bool :=
  match c with
  | .value _ => true
  | .error _ => true
  | .undefined => true
  | _ => false

/-- The settlement pass of `completedStep` over a whole column, with the
rejected entries replaced by fresh crystal errors (the step id passed at the
call site is dropped by `newCrystalError`, see
`newCrystalErrorCalledWithStepId`). -/
def settleColumn (stepId : Nat) (col : List Cell) : List Cell :=
  col.map (fun c =>
    match c with
    | .rejected e => .error (newCrystalErrorCalledWithStepId e stepId)
    | c => settleCell c)

/-- Whether settling the column observes at least one rejection. -/
def colHasRejection (col : List Cell) : Bool :=
  col.any cellRejects

/-- What a step's `execute` hands back, viewed through `isPromiseLike`:
either a synchronous return value, a future that fulfils with a value, a
future that rejects wholesale, or a synchronous raise. -/
inductive StepRet where
  | arr (col : List Cell)
  | nonArr
deriving DecidableEq, Repr

/-- Result of invoking `execute` (`PromiseOrDirect` plus the two failure
modes). -/
inductive ExecResult where
  | sync (r : StepRet)
  | async (r : StepRet)
  | asyncReject (e : JsErr)
  | throws (e : JsErr)

/-- An `ExecutableStep` as consumed by the executor: id, ordered dependency
step ids, precomputed reverse edges, the `isSyncAndSafe` flag, and the
batched `execute` callback.  (`extra` — the per-step meta scratchpad and the
event emitter — does not influence any claim and is omitted from the
callback's arguments.) -/
structure Step where
  id : Nat
  dependencies : List Nat
  dependentPlans : List Nat
  isSyncAndSafe : Bool
  execute : List (List Cell) → ExecResult

/-- `LayerPlanReason.type` of a child layer plan (`defer` is spelled
`deferred` here). -/
inductive Reason where
  | root
  | listItem
  | mutationField
  | polymorphic
  | subroutine
  | subscription
  | deferred
  | stream
deriving DecidableEq, Repr

/-- The static layer plan: its steps, the start steps (the source stores
step objects, not ids), and the reasons of its child layer plans (the only
part of a child plan the executor inspects before throwing or skipping). -/
structure LayerPlan where
  steps : List Step
  startSteps : List Step
  children : List Reason

/-- A bucket as handed to `executeBucket`: batch size, the plan, the
pre-populated store, the `noDepsList` placeholder column, and the two flags. -/
structure Bucket where
  size : Nat
  layerPlan : LayerPlan
  store : Nat → Option (List Cell)
  noDepsList : List Cell
  hasErrors : Bool
  isComplete : Bool

/-- The mutable portion of a bucket execution: the bucket's own mutable
fields plus the scheduler's `pendingSteps` / `inProgressSteps` (kept as step
ids). -/
structure SchedState where
  store : Nat → Option (List Cell)
  hasErrors : Bool
  isComplete : Bool
  pending : List Nat
  inProgress : List Nat

/-- Outcome of running a piece of the executor: a new state, a fault that in
the source escapes as an exception or a promise rejection, or fuel
exhaustion (an artefact of the fuel-indexed embedding only). -/
inductive ERes (α : Type) where
  | ok (a : α)
  | fault (e : JsErr)
  | fuelOut

/-- Modelled from the spec: `arrayOfLength` is imported from `../utils.js`,
which is not under `src/`; per the spec's broadcast wording ("broadcast it
across all `size` rows (a whole-batch failure column)") it builds a column
of `n` copies of one value. -/
def arrayOfLength (n : Nat) (c : Cell) : List Cell :=
  List.replicate n c

/-- Source lines 178–190: scan the dependency columns in declared order and
keep, for every row index, the first crystal error seen at that index. -/
def firstErrAt (deps : List (List Cell)) (i : Nat) : Option CrystalError :=
  (deps.filterMap (fun col =>
    match col.get? i with
    | some (Cell.error e) => some e
    | _ => none)).head?

/-- Source line 179/185: `foundErrors` — whether the scan found any error. -/
def foundErrors (deps : List (List Cell)) : Bool :=
  deps.any (fun col => col.any isCrystalError)

/-- `depList.filter((_, index) => !errors[index])` — filter a column by the
row index, keeping rows at which no dependency column holds an error. -/
def filterIdx (p : Nat → Bool) : List Cell → Nat → List Cell
  | [], _ => []
  | c :: rest, i => if p i then c :: filterIdx p rest (i + 1) else filterIdx p rest (i + 1)

/-- Source line 192–194: one filtered dependency column. -/
def filterNoErr (deps : List (List Cell)) (col : List Cell) : List Cell :=
  filterIdx (fun i => (firstErrAt deps i).isNone) col 0

/-- Source lines 47–64, `mergeErrorsBackIn(results, errors, resultCount)`:
produce a column of length `count` whose entry at each index is the recorded
error when present and otherwise the next unconsumed entry of `results`.
`i` is the running row index (0 at the top-level call); reading past the end
of `results` yields JavaScript `undefined` (the source has no run-time
assert). -/
def mergeErrorsBackIn (results : List Cell) (errors : Nat → Option CrystalError)
    (i : Nat) : Nat → List Cell
  | 0 => []
  | count + 1 =>
    match errors i with
    | some e => Cell.error e :: mergeErrorsBackIn results errors (i + 1) count
    | none => results.headD Cell.undefined :: mergeErrorsBackIn results.tail errors (i + 1) count

/-- Source lines 220–226: delegate to the step with the dependencies passed
through verbatim. -/
def reallyExecuteStepWithNoErrors (s : Step) (deps : List (List Cell)) : ExecResult :=
  s.execute deps

/-- Source lines 173–213: the error-aware invoker.  Scan for errors; if any
are found, invoke the step on the filtered batch and merge the errors back
positionally (`resultCount` is `dependencies[0].length`); otherwise delegate
directly.  A non-array result under the merge path is indexed like an empty
array (every lookup yields `undefined`), matching JavaScript indexing. -/
def reallyExecuteStepWithErrors (s : Step) (deps : List (List Cell)) : ExecResult :=
  if foundErrors deps then
    let errors := firstErrAt deps
    let filtered := deps.map (filterNoErr deps)
    let rc := (deps.headD []).length
    match s.execute filtered with
    | .sync (.arr r) => .sync (.arr (mergeErrorsBackIn r errors 0 rc))
    | .sync .nonArr => .sync (.arr (mergeErrorsBackIn [] errors 0 rc))
    | .async (.arr r) => .async (.arr (mergeErrorsBackIn r errors 0 rc))
    | .async .nonArr => .async (.arr (mergeErrorsBackIn [] errors 0 rc))
    | .asyncReject e => .asyncReject e
    | .throws e => .throws e
  else
    reallyExecuteStepWithNoErrors s deps

/-- Source lines 245–254: the dependency columns handed to the step —
`store[depId]` for each declared dependency, or `[noDepsList]` when there
are none.  (A dispatch only happens once every dependency column is
materialised; a missing column is rendered as `[]`.) -/
def depsOf (b : Bucket) (s : Step) (σ : SchedState) : List (List Cell) :=
  if s.dependencies.length > 0 then
    s.dependencies.map (fun d => (σ.store d).getD [])
  else
    [b.noDepsList]

/-- Source lines 133–145: the validation at the top of `completedStep` — the
result must be an array of length `bucket.size`; otherwise an `Error` is
thrown.  (On the synchronous path that throw is caught by `executeStep`'s
`catch`; on the asynchronous path it escapes as a rejection.) -/
def validateResult (size : Nat) (s : Step) : StepRet → Option JsErr
  | .nonArr => some (.shapeNonArray s.id)
  | .arr col => if col.length ≠ size then some (.shapeBadLength s.id col.length size) else none

/-- Source line 240 area: `lookupStep` resolves a `dependentPlans` entry (a
step id in this embedding) to the step object of the plan. -/
def lookupStep (P : LayerPlan) (i : Nat) : Option Step :=
  P.steps.find? (fun s => s.id == i)

/-- Point update of the store: `store[stepId] = col`. -/
def updStore (st : Nat → Option (List Cell)) (i : Nat) (col : List Cell) :
    Nat → Option (List Cell) :=
  fun j => if j = i then some col else st j

/-- The closures of `executeBucket` (source lines 97–282) as one fuel-indexed
interpreter.  One `Call` constructor per closure plus the two dispatch
loops: `exec` is `executeStep`, `completed` is `completedStep` (after its
validation, which the caller performs — in the source the validation throw
is catchable exactly on the synchronous path), `reallyCompleted` is
`reallyCompletedStep`, `dispatchDeps` is the dependent-dispatch loop inside
`reallyCompletedStep`, and `runStarts` is the start-step loop of
`executeBucket` itself. -/
inductive Call where
  | exec (s : Step)
  | completed (s : Step) (ret : StepRet) (noNewErrors : Bool)
  | reallyCompleted (s : Step)
  | dispatchDeps (ds : List Nat)
  | runStarts (ss : List Step)

/-- The executor proper.  Every recursive call consumes one unit of fuel, so
the definition is structurally recursive; `ERes.fuelOut` never occurs for
sufficiently large fuel.  Faults (`ERes.fault`) are the exceptions /
rejections that escape the corresponding source function. -/
def engine (b : Bucket) : Nat → Call → SchedState → ERes SchedState
  | 0, _, _ => .fuelOut
  | fuel + 1, c, σ =>
    match c with
    | .exec s =>
      -- source lines 234–282
      if σ.inProgress.contains s.id then .ok σ
      else
        let σ₁ := { σ with inProgress := s.id :: σ.inProgress }
        let deps := depsOf b s σ₁
        let result :=
          if σ₁.hasErrors then reallyExecuteStepWithErrors s deps
          else reallyExecuteStepWithNoErrors s deps
        match result with
        | .sync ret =>
          -- `return completedStep(step, result, true)` inside the `try`:
          -- the validation throw is caught and broadcast (lines 274–281).
          match validateResult b.size s ret with
          | some e =>
            engine b fuel
              (.completed s (.arr (arrayOfLength b.size
                (Cell.error (newCrystalErrorCalledWithStepId e s.id)))) true)
              { σ₁ with hasErrors := true }
          | none => engine b fuel (.completed s ret true) σ₁
        | .throws e =>
          -- synchronous raise from `execute` — caught (lines 274–281)
          engine b fuel
            (.completed s (.arr (arrayOfLength b.size
              (Cell.error (newCrystalErrorCalledWithStepId e s.id)))) true)
            { σ₁ with hasErrors := true }
        | .async ret =>
          -- `result.then(values => completedStep(step, values), ...)`:
          -- a validation throw inside the fulfilled handler escapes as a
          -- rejection (lines 258–262).
          match validateResult b.size s ret with
          | some e => .fault e
          | none => engine b fuel (.completed s ret false) σ₁
        | .asyncReject e =>
          -- the rejection handler (lines 263–269)
          engine b fuel
            (.completed s (.arr (arrayOfLength b.size
              (Cell.error (newCrystalErrorCalledWithStepId e s.id)))) false)
            { σ₁ with hasErrors := true }
    | .completed s ret noNewErrors =>
      -- source lines 128–166 (validation already replayed here; the caller
      -- decides whether its throw is catchable)
      match ret with
      | .nonArr => .fault (.shapeNonArray s.id)
      | .arr col =>
        if col.length ≠ b.size then .fault (.shapeBadLength s.id col.length b.size)
        else if s.isSyncAndSafe && noNewErrors then
          engine b fuel (.reallyCompleted s)
            { σ with store := updStore σ.store s.id col }
        else
          engine b fuel (.reallyCompleted s)
            { σ with
              store := updStore σ.store s.id (settleColumn s.id col)
              hasErrors := σ.hasErrors || colHasRejection col }
    | .reallyCompleted s =>
      -- source lines 97–126
      let σ' := { σ with
        inProgress := σ.inProgress.filter (fun i => i != s.id)
        pending := σ.pending.filter (fun i => i != s.id) }
      if σ'.pending.isEmpty then .ok σ'
      else engine b fuel (.dispatchDeps s.dependentPlans) σ'
    | .dispatchDeps ds =>
      -- the loop over `finishedStep.dependentPlans` (lines 107–120),
      -- sequentialised; `Promise.all` propagates the first rejection
      match ds with
      | [] => .ok σ
      | d :: rest =>
        match lookupStep b.layerPlan d with
        | none => engine b fuel (.dispatchDeps rest) σ
        | some t =>
          if σ.pending.contains t.id
              && t.dependencies.all (fun dep => (σ.store dep).isSome) then
            match engine b fuel (.exec t) σ with
            | .ok σ' => engine b fuel (.dispatchDeps rest) σ'
            | r => r
          else engine b fuel (.dispatchDeps rest) σ
    | .runStarts ss =>
      -- the start-step loop of `executeBucket` (lines 81–87), sequentialised
      match ss with
      | [] => .ok σ
      | s :: rest =>
        match engine b fuel (.exec s) σ with
        | .ok σ' => engine b fuel (.runStarts rest) σ'
        | r => r

/-- `executeStep` of the source, as a run of the interpreter. -/
def executeStep (b : Bucket) (fuel : Nat) (s : Step) (σ : SchedState) : ERes SchedState :=
  engine b fuel (.exec s) σ

/-- `completedStep` of the source, as a run of the interpreter. -/
def completedStep (b : Bucket) (fuel : Nat) (s : Step) (ret : StepRet)
    (noNewErrors : Bool) (σ : SchedState) : ERes SchedState :=
  engine b fuel (.completed s ret noNewErrors) σ

/-- `reallyCompletedStep` of the source, as a run of the interpreter. -/
def reallyCompletedStep (b : Bucket) (fuel : Nat) (s : Step) (σ : SchedState) :
    ERes SchedState :=
  engine b fuel (.reallyCompleted s) σ

/-- The exception thrown for one child layer plan, if any (source lines
295–352): the `TODO` throws for `listItem` / `mutationField` /
`polymorphic`, the internal error for `root`, and skip for the rest. -/
def childFault (r : Reason) : Option JsErr :=
  match r with
  | .listItem => some .todoListItem
  | .mutationField => some .todoMutationField
  | .polymorphic => some .todoPolymorphic
  | .root => some .rootChild
  | _ => none

/-- Source lines 284–364, `executeSamePhaseChildren`: assert every step
completed, then walk the child layer plans in order, throwing at the first
non-skippable reason.  The source's `bucket.isComplete = true` at line 363
sits after both `return` statements and is therefore never executed, which
this embedding reproduces by leaving `isComplete` untouched. -/
def executeSamePhaseChildren (b : Bucket) (σ : SchedState) : ERes SchedState :=
  if σ.pending.isEmpty then
    match (b.layerPlan.children.filterMap childFault).head? with
    | some e => .fault e
    | none => .ok σ
  else
    .fault .stepsIncomplete

/-- The scheduler state at entry of `executeBucket` (source lines 71–79):
`pendingSteps` is all of the plan's steps, `inProgressSteps` is empty, and
the mutable bucket fields are taken from the bucket. -/
def initState (b : Bucket) : SchedState :=
  { store := b.store
    hasErrors := b.hasErrors
    isComplete := b.isComplete
    pending := b.layerPlan.steps.map (fun s => s.id)
    inProgress := [] }

/-- Source lines 67–94, `executeBucket`: dispatch every start step, then run
the child hand-off.  A fault anywhere is the exception / rejection that the
caller of `executeBucket` observes. -/
def executeBucket (fuel : Nat) (b : Bucket) : ERes SchedState :=
  match engine b fuel (.runStarts b.layerPlan.startSteps) (initState b) with
  | .ok σ => executeSamePhaseChildren b σ
  | r => r

-- Small extraction helpers so that concrete runs can be stated as closed
-- decidable equations without comparing whole states.

/-- Project the `hasErrors` flag of a successful run. -/
def resHasErrors (r : ERes SchedState) : Option Bool :=
  match r with
  | .ok σ => some σ.hasErrors
  | _ => none

/-- Project the `isComplete` flag of a successful run. -/
def resIsComplete (r : ERes SchedState) : Option Bool :=
  match r with
  | .ok σ => some σ.isComplete
  | _ => none

/-- Project one store column of a successful run. -/
def resStoreAt (i : Nat) (r : ERes SchedState) : Option (Option (List Cell)) :=
  match r with
  | .ok σ => some (σ.store i)
  | _ => none

/-- Project the fault of a failed run. -/
def resFault (r : ERes SchedState) : Option JsErr :=
  match r with
  | .fault e => some e
  | _ => none

/-- Whether the run succeeded. -/
def resIsOk (r : ERes SchedState) : Bool :=
  match r with
  | .ok _ => true
  | _ => false

/-- The state of a successful run, with a fallback. -/
def resState (r : ERes SchedState) (d : SchedState) : SchedState :=
  match r with
  | .ok σ => σ
  | _ => d

/-- The shape contract of §4.2 on `execute` results: a returned column
(synchronous or via a future) is an array whose length equals the length of
the first input column; wholesale raises and rejections are allowed.  Steps
violate this only through the programming errors of claim class "shape
violation". -/
def okResStep (s : Step) : Prop :=
  ∀ input : List (List Cell),
    match s.execute input with
    | .sync (.arr col) => col.length = (input.headD []).length
    | .async (.arr col) => col.length = (input.headD []).length
    | .sync .nonArr => False
    | .async .nonArr => False
    | .asyncReject _ => True
    | .throws _ => True

/-- Every materialised store column has the bucket's row count. -/
def storesWF (size : Nat) (σ : SchedState) : Prop :=
  ∀ i col, σ.store i = some col → col.length = size

/-- Precondition of one `Call` under which the interpreter cannot fault:
steps are invoked only with materialised dependencies (or none), completions
only with well-shaped columns, and start steps have no dependencies. -/
def callOK (b : Bucket) (c : Call) (σ : SchedState) : Prop :=
  match c with
  | .exec s =>
      okResStep s ∧ (s.dependencies = [] ∨ ∀ d ∈ s.dependencies, (σ.store d).isSome = true)
  | .completed _ ret _ => ∃ col, ret = .arr col ∧ col.length = b.size
  | .reallyCompleted _ => True
  | .dispatchDeps _ => True
  | .runStarts ss => ∀ s ∈ ss, okResStep s ∧ s.dependencies = []

/-- The step ids a `Call` may write a column for, besides the still-pending
steps its cascade reaches. -/
def callIds (c : Call) : List Nat :=
  match c with
  | .exec s => [s.id]
  | .completed s _ _ => [s.id]
  | .reallyCompleted s => [s.id]
  | .dispatchDeps _ => []
  | .runStarts ss => ss.map (fun s => s.id)

/-- Number of row indexes in `[i, i+k)` at which `errors` records no error
(the rows that consume an entry of the filtered result). -/
def nonErrBetween (errors : Nat → Option CrystalError) : Nat → Nat → Nat
  | _, 0 => 0
  | i, k + 1 => (if (errors i).isNone then 1 else 0) + nonErrBetween errors (i + 1) k

/-- Number of row indexes in `[i, i+k)` at which `errors` records an error. -/
def errRowsBetween (errors : Nat → Option CrystalError) : Nat → Nat → Nat
  | _, 0 => 0
  | i, k + 1 => (if (errors i).isSome then 1 else 0) + errRowsBetween errors (i + 1) k

namespace Dispatch

/-!
The asynchronous face of the scheduler, as a nondeterministic transition
system.  The deterministic interpreter above settles each future at a fixed
point; here, instead, dispatch of a step and settlement of its work are
separate transitions that may interleave arbitrarily, which is the setting
of the dispatch-ordering claims.  Transitions correspond to the call sites
of `executeStep`: the start loop of `executeBucket` (lines 81–87) and the
dependent scan of `reallyCompletedStep` (lines 107–120, guarded by
membership in `pendingSteps` and by `Array.isArray(store[depId])`), plus
completion (publication and removal, lines 97–101 and 148–163).  `invoked`
counts how many times a step's `execute` has been called.
-/

/-- The static data of a step that the scheduler's bookkeeping consults. -/
structure TStep where
  id : Nat
  dependencies : List Nat
  dependentPlans : List Nat
deriving DecidableEq, Repr

/-- The static data of a layer plan consulted by the scheduler. -/
structure TPlan where
  steps : List TStep
  startSteps : List TStep
deriving DecidableEq, Repr

/-- Scheduler state: which start steps the top-level loop has dispatched,
the `pendingSteps` / `inProgressSteps` sets, the store, and the invocation
counter per step id. -/
structure TState where
  started : List Nat
  pending : List Nat
  inProgress : List Nat
  store : Nat → Option (List Cell)
  invoked : Nat → Nat

/-- The entry of `executeStep` (lines 235–238): a no-op when the step is
already in progress, otherwise the step is marked in progress and its
`execute` is invoked. -/
def stepEnter (σ : TState) (s : TStep) : TState :=
  if σ.inProgress.contains s.id then σ
  else
    { σ with
      inProgress := s.id :: σ.inProgress
      invoked := fun i => if i = s.id then σ.invoked i + 1 else σ.invoked i }

/-- Completion of a step's work: publish a column and remove the step from
both bookkeeping sets (lines 100–101 / 148 / 162). -/
def publish (σ : TState) (s : TStep) (col : List Cell) : TState :=
  { σ with
    store := updStore σ.store s.id col
    pending := σ.pending.filter (fun i => i != s.id)
    inProgress := σ.inProgress.filter (fun i => i != s.id) }

/-- One scheduler transition. -/
inductive Trans (P : TPlan) : TState → TState → Prop
  | start (σ : TState) (s : TStep) (hs : s ∈ P.startSteps)
      (hns : s.id ∉ σ.started) :
      Trans P σ (stepEnter { σ with started := s.id :: σ.started } s)
  | dispatch (σ : TState) (parent s : TStep) (hp : parent ∈ P.steps)
      (hs : s ∈ P.steps) (hedge : s.id ∈ parent.dependentPlans)
      (hpdone : parent.id ∉ σ.pending) (hpend : s.id ∈ σ.pending)
      (hready : ∀ d ∈ s.dependencies, (σ.store d).isSome = true) :
      Trans P σ (stepEnter σ s)
  | complete (σ : TState) (s : TStep) (hs : s ∈ P.steps)
      (hin : s.id ∈ σ.inProgress) (col : List Cell) :
      Trans P σ (publish σ s col)

/-- The state at entry of `executeBucket`. -/
def init (P : TPlan) (store₀ : Nat → Option (List Cell)) : TState :=
  { started := []
    pending := P.steps.map (fun s => s.id)
    inProgress := []
    store := store₀
    invoked := fun _ => 0 }

/-- The states a bucket execution can reach. -/
inductive Reach (P : TPlan) (store₀ : Nat → Option (List Cell)) : TState → Prop
  | init : Reach P store₀ (init P store₀)
  | next (σ σ' : TState) : Reach P store₀ σ → Trans P σ σ' → Reach P store₀ σ'

/-- The inductive invariant of the scheduler from which the dispatch claims
follow. -/
def Inv (P : TPlan) (σ : TState) : Prop :=
  (∀ i, σ.invoked i ≤ 1)
  ∧ (∀ i, i ∈ σ.inProgress → i ∈ σ.pending ∧ σ.invoked i = 1)
  ∧ (∀ i, σ.invoked i = 1 → i ∈ σ.inProgress ∨ i ∉ σ.pending)
  ∧ (∀ s ∈ P.startSteps, s.id ∉ σ.started → σ.invoked s.id = 0)
  ∧ (∀ s ∈ P.steps, σ.invoked s.id = 0 → s.id ∈ σ.pending)
  ∧ (∀ s ∈ P.steps, 1 ≤ σ.invoked s.id → ∀ d ∈ s.dependencies, (σ.store d).isSome = true)

end Dispatch

/-- A scheduler state with empty `inProgress` and the given fields. -/
def plainState (pending : List Nat) (store : Nat → Option (List Cell))
    (hasErrors : Bool) : SchedState :=
  { store := store
    hasErrors := hasErrors
    isComplete := false
    pending := pending
    inProgress := [] }

/-- Fallback state for `resState`. -/
def defaultState : SchedState :=
  plainState [] (fun _ => none) false

/-- A bucket with no steps whose layer plan has one `root` child: the child
hand-off throws, so `executeBucket` itself throws. -/
def rootChildBucket : Bucket :=
  { size := 0
    layerPlan := { steps := [], startSteps := [], children := [Reason.root] }
    store := fun _ => none
    noDepsList := []
    hasErrors := false
    isComplete := false }

/-- The zero-size bucket of the spec's scenario 6: no steps, no children. -/
def emptyBucket : Bucket :=
  { size := 0
    layerPlan := { steps := [], startSteps := [], children := [] }
    store := fun _ => none
    noDepsList := []
    hasErrors := false
    isComplete := false }

/-- A step whose synchronous result has the wrong length (0 instead of 1). -/
def shortStep : Step :=
  { id := 0
    dependencies := []
    dependentPlans := []
    isSyncAndSafe := false
    execute := fun _ => .sync (.arr []) }

/-- Bucket of size 1 running only `shortStep`. -/
def shortBucket : Bucket :=
  { size := 1
    layerPlan := { steps := [shortStep], startSteps := [shortStep], children := [] }
    store := fun _ => none
    noDepsList := [Cell.value 0]
    hasErrors := false
    isComplete := false }

/-- A step whose future fulfils with a wrong-length column. -/
def asyncShortStep : Step :=
  { id := 0
    dependencies := []
    dependentPlans := []
    isSyncAndSafe := false
    execute := fun _ => .async (.arr []) }

/-- An error value sitting in a pre-populated store column. -/
def errCell : Cell :=
  Cell.error (newCrystalError (.user 5))

/-- A step that passes its first dependency column through unchanged. -/
def passStep : Step :=
  { id := 1
    dependencies := [0]
    dependentPlans := []
    isSyncAndSafe := false
    execute := fun input => .sync (.arr (input.headD [])) }

/-- Bucket of size 1 whose pre-populated column for id 0 already contains an
error while `hasErrors` is still false (the parent's copy discipline is not
re-checked by the executor). -/
def passBucket : Bucket :=
  { size := 1
    layerPlan := { steps := [passStep], startSteps := [passStep], children := [] }
    store := fun j => if j = 0 then some [errCell] else none
    noDepsList := [Cell.value 0]
    hasErrors := false
    isComplete := false }

/-- A step that raises synchronously on every input. -/
def throwStep : Step :=
  { id := 0
    dependencies := []
    dependentPlans := []
    isSyncAndSafe := false
    execute := fun _ => .throws (.user 3) }

/-- Bucket of size 3 for `throwStep` (spec scenario 4). -/
def throwBucket : Bucket :=
  { size := 3
    layerPlan := { steps := [throwStep], startSteps := [throwStep], children := [] }
    store := fun _ => none
    noDepsList := [Cell.value 0, Cell.value 0, Cell.value 0]
    hasErrors := false
    isComplete := false }

/-- A step whose returned future rejects wholesale on every input. -/
def rejectStep : Step :=
  { id := 0
    dependencies := []
    dependentPlans := []
    isSyncAndSafe := false
    execute := fun _ => .asyncReject (.user 4) }

/-- A step whose synchronous result contains a rejected promise entry. -/
def rejCellStep : Step :=
  { id := 0
    dependencies := []
    dependentPlans := []
    isSyncAndSafe := false
    execute := fun _ => .sync (.arr [Cell.rejected (.user 8)]) }

/-- Bucket of size 1 for `rejCellStep`. -/
def rejCellBucket : Bucket :=
  { size := 1
    layerPlan := { steps := [rejCellStep], startSteps := [rejCellStep], children := [] }
    store := fun _ => none
    noDepsList := [Cell.value 0]
    hasErrors := false
    isComplete := false }

/-- The step of the error-aware-invoker witness: one dependency column (id
0) of size 2 with an error at row 0; on the 1-row filtered batch it returns
`[value 5]`. -/
def invokerStep : Step :=
  { id := 1
    dependencies := [0]
    dependentPlans := []
    isSyncAndSafe := true
    execute := fun input => .sync (.arr (List.replicate (input.headD []).length (Cell.value 5))) }

/-- State for the invoker witness: `hasErrors` already true, column 0
materialised as `[ERR, 9]`. -/
def invokerState : SchedState :=
  plainState [1] (fun j => if j = 0 then some [errCell, Cell.value 9] else none) true

/-- Bucket of size 2 for the invoker witness. -/
def invokerBucket : Bucket :=
  { size := 2
    layerPlan := { steps := [invokerStep], startSteps := [], children := [] }
    store := fun _ => none
    noDepsList := [Cell.value 0, Cell.value 0]
    hasErrors := true
    isComplete := false }

/-- A well-shaped echo step: returns a column of values matching its input
length, so it satisfies the shape contract on every input. -/
def echoStep : Step :=
  { id := 0
    dependencies := []
    dependentPlans := []
    isSyncAndSafe := true
    execute := fun input => .sync (.arr (List.replicate (input.headD []).length (Cell.value 1))) }

/-- A fault-free bucket: one well-shaped start step and only skippable child
layer plans. -/
def okBucket : Bucket :=
  { size := 2
    layerPlan :=
      { steps := [echoStep]
        startSteps := [echoStep]
        children := [Reason.subroutine, Reason.subscription, Reason.deferred, Reason.stream] }
    store := fun _ => none
    noDepsList := [Cell.value 0, Cell.value 0]
    hasErrors := false
    isComplete := false }

/-- A bucket that enters execution with `hasErrors` already true. -/
def taintedBucket : Bucket :=
  { size := 0
    layerPlan := { steps := [], startSteps := [], children := [] }
    store := fun _ => none
    noDepsList := []
    hasErrors := true
    isComplete := false }

/-- Error-free dependency columns for the invoker-identity witness. -/
def cleanDeps : List (List Cell) :=
  [[Cell.value 1, Cell.value 2], [Cell.value 3, Cell.value 4]]

/-- A sync-safe step used for the invoker-identity witness. -/
def cleanStep : Step :=
  { id := 0
    dependencies := [7, 8]
    dependentPlans := []
    isSyncAndSafe := true
    execute := fun _ => .sync (.arr [Cell.value 10, Cell.value 20]) }

namespace Dispatch

/-- Diamond plan of the spec's scenario 2: `A → {B, C} → D`. -/
def dA : TStep := { id := 0, dependencies := [], dependentPlans := [1, 2] }

/-- See `dA`. -/
def dB : TStep := { id := 1, dependencies := [0], dependentPlans := [3] }

/-- See `dA`. -/
def dC : TStep := { id := 2, dependencies := [0], dependentPlans := [3] }

/-- See `dA`. -/
def dD : TStep := { id := 3, dependencies := [1, 2], dependentPlans := [] }

/-- The diamond layer plan. -/
def diamond : TPlan :=
  { steps := [dA, dB, dC, dD], startSteps := [dA] }

end Dispatch

namespace Dispatch

/-- The scheduler state at entry for the diamond witness. -/
def w0 : TState := init diamond (fun _ => none)

/-- After the top-level loop dispatches `A`. -/
def w1 : TState := stepEnter { w0 with started := dA.id :: w0.started } dA

/-- After `A` completes, publishing `[1]`. -/
def w2 : TState := publish w1 dA [Cell.value 1]

/-- After `A`'s completion dispatches the dependent `B`. -/
def w3 : TState := stepEnter w2 dB

end Dispatch

theorem mergeErrorsBackIn_length (errors : Nat → Option CrystalError) :
    ∀ (count i : Nat) (results : List Cell),
      (mergeErrorsBackIn results errors i count).length = count := by
  intro count
  induction count with
  | zero => intro i results; rfl
  | succ k ih =>
    intro i results
    cases h : errors i with
    | some e => simp [mergeErrorsBackIn, h, ih]
    | none => simp [mergeErrorsBackIn, h, ih]

theorem getD_tail_cell (l : List Cell) (n : Nat) :
    l.tail.getD n Cell.undefined = l.getD (n + 1) Cell.undefined := by
  cases l <;> rfl

theorem nonErr_add_err (errors : Nat → Option CrystalError) :
    ∀ (k i : Nat),
      nonErrBetween errors i k + errRowsBetween errors i k = k := by
  intro k
  induction k with
  | zero => intro i; rfl
  | succ k ih =>
    intro i
    simp only [nonErrBetween, errRowsBetween]
    have := ih (i + 1)
    cases h : errors i <;> simp [h] <;> omega

theorem nonErrBetween_le (errors : Nat → Option CrystalError) (k i : Nat) :
    nonErrBetween errors i k ≤ k := by
  have := nonErr_add_err errors k i
  omega

theorem nonErrBetween_split (errors : Nat → Option CrystalError) :
    ∀ (a b i : Nat),
      nonErrBetween errors i (a + b) =
        nonErrBetween errors i a + nonErrBetween errors (i + a) b := by
  intro a
  induction a with
  | zero => intro b i; simp [nonErrBetween]
  | succ a ih =>
    intro b i
    have hidx : a + 1 + b = (a + b) + 1 := by omega
    rw [hidx]
    simp only [nonErrBetween]
    rw [ih b (i + 1)]
    have h2 : i + 1 + a = i + (a + 1) := by omega
    rw [h2]
    omega

theorem nonErrBetween_succ_top (errors : Nat → Option CrystalError) (k i : Nat) :
    nonErrBetween errors i (k + 1) =
      nonErrBetween errors i k + (if (errors (i + k)).isNone then 1 else 0) := by
  rw [nonErrBetween_split errors k 1 i]
  simp [nonErrBetween]

theorem nonErrBetween_mono (errors : Nat → Option CrystalError) (i a b : Nat)
    (h : a ≤ b) : nonErrBetween errors i a ≤ nonErrBetween errors i b := by
  have hb : b = a + (b - a) := by omega
  rw [hb, nonErrBetween_split]
  omega

theorem nonErrBetween_all_none (errors : Nat → Option CrystalError)
    (h : ∀ j, errors j = none) : ∀ (k i : Nat), nonErrBetween errors i k = k := by
  intro k
  induction k with
  | zero => intro i; rfl
  | succ k ih =>
    intro i
    simp [nonErrBetween, h, ih]
    omega

theorem mergeErrorsBackIn_get (errors : Nat → Option CrystalError) :
    ∀ (count i k : Nat) (results : List Cell), k < count →
      (mergeErrorsBackIn results errors i count).get? k =
        some (match errors (i + k) with
          | some e => Cell.error e
          | none => results.getD (nonErrBetween errors i k) Cell.undefined) := by
  intro count
  induction count with
  | zero => intro i k results hk; omega
  | succ c ih =>
    intro i k results hk
    cases k with
    | zero =>
      cases h : errors i with
      | some e => simp [mergeErrorsBackIn, h]
      | none =>
        simp only [mergeErrorsBackIn, h, Nat.add_zero, List.get?]
        cases results <;> simp [nonErrBetween]
    | succ k' =>
      have hk' : k' < c := by omega
      have hidx : i + 1 + k' = i + (k' + 1) := by omega
      cases h : errors i with
      | some e =>
        have hrec := ih (i + 1) k' results hk'
        simp only [mergeErrorsBackIn, h, List.get?]
        rw [hrec, hidx]
        have hcount : nonErrBetween errors i (k' + 1) =
            nonErrBetween errors (i + 1) k' := by
          simp [nonErrBetween, h]
        rw [hcount]
      | none =>
        have hrec := ih (i + 1) k' results.tail hk'
        simp only [mergeErrorsBackIn, h, List.get?]
        rw [hrec, hidx]
        have hcount : nonErrBetween errors i (k' + 1) =
            nonErrBetween errors (i + 1) k' + 1 := by
          simp [nonErrBetween, h]
          omega
        rw [hcount]
        cases he : errors (i + (k' + 1)) with
        | some e => rfl
        | none => simp [getD_tail_cell]

theorem mergeErrorsBackIn_mem (errors : Nat → Option CrystalError) :
    ∀ (count i : Nat) (results : List Cell) (c : Cell),
      c ∈ mergeErrorsBackIn results errors i count →
      (∃ e, c = Cell.error e) ∨ c ∈ results ∨ c = Cell.undefined := by
  intro count
  induction count with
  | zero => intro i results c hc; simp [mergeErrorsBackIn] at hc
  | succ k ih =>
    intro i results c hc
    cases h : errors i with
    | some e =>
      rw [mergeErrorsBackIn, h] at hc
      rcases List.mem_cons.mp hc with hhead | htail
      · exact Or.inl ⟨e, hhead⟩
      · exact ih (i + 1) results c htail
    | none =>
      rw [mergeErrorsBackIn, h] at hc
      rcases List.mem_cons.mp hc with hhead | htail
      · cases results with
        | nil => exact Or.inr (Or.inr hhead)
        | cons a t => exact Or.inr (Or.inl (hhead ▸ List.mem_cons_self a t))
      · rcases ih (i + 1) results.tail c htail with he | hmem | hu
        · exact Or.inl he
        · exact Or.inr (Or.inl (List.tail_subset results hmem))
        · exact Or.inr (Or.inr hu)

theorem mergeErrorsBackIn_all_none (errors : Nat → Option CrystalError)
    (h : ∀ j, errors j = none) :
    ∀ (count i : Nat) (results : List Cell), results.length = count →
      mergeErrorsBackIn results errors i count = results := by
  intro count
  induction count with
  | zero =>
    intro i results hlen
    cases results with
    | nil => rfl
    | cons a t => simp at hlen
  | succ k ih =>
    intro i results hlen
    cases results with
    | nil => simp at hlen
    | cons a t =>
      rw [mergeErrorsBackIn, h i]
      simp only [List.headD, List.tail]
      rw [ih (i + 1) t (by simpa using hlen)]

theorem filterIdx_all (p : Nat → Bool) (hp : ∀ i, p i = true) :
    ∀ (col : List Cell) (i : Nat), filterIdx p col i = col := by
  intro col
  induction col with
  | nil => intro i; rfl
  | cons c rest ih => intro i; simp [filterIdx, hp i, ih]

theorem firstErrAt_of_not_found (deps : List (List Cell))
    (h : foundErrors deps = false) (i : Nat) : firstErrAt deps i = none := by
  have hall : ∀ col ∈ deps, ∀ c ∈ col, isCrystalError c = false := by
    intro col hcol c hc
    by_contra hne
    have hc' : isCrystalError c = true := by
      cases hbool : isCrystalError c
      · exact absurd hbool hne
      · rfl
    have : foundErrors deps = true := by
      simp only [foundErrors, List.any_eq_true]
      exact ⟨col, hcol, c, hc, hc'⟩
    rw [h] at this
    exact Bool.false_ne_true this
  unfold firstErrAt
  rw [List.head?_eq_none_iff]
  rw [List.filterMap_eq_nil_iff]
  intro col hcol
  cases hg : col.get? i with
  | none => rfl
  | some c =>
    have hmem := List.get?_mem hg
    have := hall col hcol c hmem
    cases c <;> simp_all [isCrystalError]

theorem settleColumn_settled (sid : Nat) (col : List Cell)
    (h : ∀ c ∈ col, cellSettled c = true) : settleColumn sid col = col := by
  induction col with
  | nil => rfl
  | cons c rest ih =>
    have hc := h c (List.mem_cons_self c rest)
    have hrest := ih (fun x hx => h x (List.mem_cons_of_mem c hx))
    cases c <;> simp_all [settleColumn, settleCell, cellSettled]

theorem colHasRejection_settled (col : List Cell)
    (h : ∀ c ∈ col, cellSettled c = true) : colHasRejection col = false := by
  rw [colHasRejection, List.any_eq_false]
  intro c hc
  have := h c hc
  cases c <;> simp_all [cellRejects, cellSettled]

theorem engine_hasErrors_mono (b : Bucket) :
    ∀ (fuel : Nat) (c : Call) (σ σ' : SchedState),
      engine b fuel c σ = .ok σ' → σ.hasErrors = true → σ'.hasErrors = true := by
  intro fuel
  induction fuel with
  | zero =>
    intro c σ σ' h htrue
    simp [engine] at h
  | succ fuel ih =>
    intro c σ σ' h htrue
    cases c with
    | exec s =>
      simp only [engine] at h
      split at h
      · cases h; exact htrue
      · split at h
        · split at h
          · exact ih _ _ _ h rfl
          · exact ih _ _ _ h htrue
        · exact ih _ _ _ h rfl
        · split at h
          · cases h
          · exact ih _ _ _ h htrue
        · exact ih _ _ _ h rfl
    | completed s ret noNewErrors =>
      simp only [engine] at h
      split at h
      · cases h
      · split at h
        · cases h
        · split at h
          · exact ih _ _ _ h htrue
          · refine ih _ _ _ h ?_
            simp [htrue]
    | reallyCompleted s =>
      simp only [engine] at h
      split at h
      · cases h; exact htrue
      · exact ih _ _ _ h htrue
    | dispatchDeps ds =>
      cases ds with
      | nil =>
        simp only [engine] at h
        cases h; exact htrue
      | cons d rest =>
        simp only [engine] at h
        split at h
        · exact ih _ _ _ h htrue
        · split at h
          · split at h
            · rename_i heq
              exact ih _ _ _ h (ih _ _ _ heq htrue)
            · rename_i hne
              exact absurd h (hne σ')
          · exact ih _ _ _ h htrue
    | runStarts ss =>
      cases ss with
      | nil =>
        simp only [engine] at h
        cases h; exact htrue
      | cons s rest =>
        simp only [engine] at h
        split at h
        · rename_i heq
          exact ih _ _ _ h (ih _ _ _ heq htrue)
        · rename_i hne
          exact absurd h (hne σ')

theorem engine_frame (b : Bucket) :
    ∀ (fuel : Nat) (c : Call) (σ σ' : SchedState),
      engine b fuel c σ = .ok σ' →
      (∀ j, j ∈ σ'.pending → j ∈ σ.pending)
      ∧ (∀ j, j ∉ σ.pending → j ∉ callIds c → σ'.store j = σ.store j) := by
  intro fuel
  induction fuel with
  | zero =>
    intro c σ σ' h
    simp [engine] at h
  | succ fuel ih =>
    intro c σ σ' h
    cases c with
    | exec s =>
      simp only [engine] at h
      split at h
      · cases h; exact ⟨fun j hj => hj, fun j _ _ => rfl⟩
      · split at h
        · split at h
          · have hf := ih _ _ _ h; exact ⟨hf.1, hf.2⟩
          · have hf := ih _ _ _ h; exact ⟨hf.1, hf.2⟩
        · have hf := ih _ _ _ h; exact ⟨hf.1, hf.2⟩
        · split at h
          · cases h
          · have hf := ih _ _ _ h; exact ⟨hf.1, hf.2⟩
        · have hf := ih _ _ _ h; exact ⟨hf.1, hf.2⟩
    | completed s ret noNewErrors =>
      simp only [engine] at h
      split at h
      · cases h
      · split at h
        · cases h
        · split at h
          · have hf := ih _ _ _ h
            refine ⟨hf.1, fun j hjp hjc => ?_⟩
            rw [hf.2 j hjp hjc]
            simp only [updStore]
            rw [if_neg (show ¬j = s.id by simpa [callIds] using hjc)]
          · have hf := ih _ _ _ h
            refine ⟨hf.1, fun j hjp hjc => ?_⟩
            rw [hf.2 j hjp hjc]
            simp only [updStore]
            rw [if_neg (show ¬j = s.id by simpa [callIds] using hjc)]
    | reallyCompleted s =>
      simp only [engine] at h
      split at h
      · cases h
        refine ⟨fun j hj => ?_, fun j _ _ => rfl⟩
        exact (List.mem_filter.mp hj).1
      · have hf := ih _ _ _ h
        refine ⟨fun j hj => (List.mem_filter.mp (hf.1 j hj)).1, fun j hjp _ => ?_⟩
        refine hf.2 j ?_ (by simp [callIds])
        intro hj
        exact hjp (List.mem_filter.mp hj).1
    | dispatchDeps ds =>
      cases ds with
      | nil =>
        simp only [engine] at h
        cases h
        exact ⟨fun j hj => hj, fun j _ _ => rfl⟩
      | cons d rest =>
        simp only [engine] at h
        split at h
        · have hf := ih _ _ _ h; exact ⟨hf.1, hf.2⟩
        · split at h
          · split at h
            · rename_i xopt t hlook hguard xres σ₂ heq
              have hf1 := ih _ _ _ heq
              have hf2 := ih _ _ _ h
              have htid : t.id ∈ σ.pending := by
                simp only [Bool.and_eq_true] at hguard
                simpa using hguard.1
              refine ⟨fun j hj => hf1.1 j (hf2.1 j hj), fun j hjp hjc => ?_⟩
              have hj2 : j ∉ σ₂.pending := fun hj => hjp (hf1.1 j hj)
              rw [hf2.2 j hj2 (by simp [callIds])]
              refine hf1.2 j hjp ?_
              simp only [callIds, List.mem_singleton]
              intro heqid
              exact hjp (by rw [heqid]; exact htid)
            · rename_i hne
              exact absurd h (hne σ')
          · have hf := ih _ _ _ h; exact ⟨hf.1, hf.2⟩
    | runStarts ss =>
      cases ss with
      | nil =>
        simp only [engine] at h
        cases h
        exact ⟨fun j hj => hj, fun j _ _ => rfl⟩
      | cons s rest =>
        simp only [engine] at h
        split at h
        · rename_i xres σ₂ heq
          have hf1 := ih _ _ _ heq
          have hf2 := ih _ _ _ h
          refine ⟨fun j hj => hf1.1 j (hf2.1 j hj), fun j hjp hjc => ?_⟩
          have hjid : ¬j = s.id ∧ j ∉ rest.map (fun s => s.id) := by
            simp only [callIds, List.map_cons, List.mem_cons] at hjc
            push_neg at hjc
            exact hjc
          have hj2 : j ∉ σ₂.pending := fun hj => hjp (hf1.1 j hj)
          have hjc2 : j ∉ callIds (.runStarts rest) := by
            simp only [callIds]; exact hjid.2
          rw [hf2.2 j hj2 hjc2]
          refine hf1.2 j hjp ?_
          simp only [callIds, List.mem_singleton]
          exact hjid.1
        · rename_i hne
          exact absurd h (hne σ')

theorem settleColumn_length (sid : Nat) (col : List Cell) :
    (settleColumn sid col).length = col.length := by
  simp [settleColumn]

theorem validateResult_none_elim (size : Nat) (s : Step) (ret : StepRet)
    (h : validateResult size s ret = none) :
    ∃ col, ret = .arr col ∧ col.length = size := by
  cases ret with
  | nonArr => simp [validateResult] at h
  | arr col =>
    refine ⟨col, rfl, ?_⟩
    by_contra hne
    simp [validateResult, hne] at h

theorem depsOf_head_length (b : Bucket) (s : Step) (σ : SchedState)
    (hwf : storesWF b.size σ) (hndl : b.noDepsList.length = b.size)
    (hmat : s.dependencies = [] ∨ ∀ d ∈ s.dependencies, (σ.store d).isSome = true) :
    ((depsOf b s σ).headD []).length = b.size := by
  rcases hmat with hnil | hmat
  · simp [depsOf, hnil, hndl]
  · unfold depsOf
    cases hd : s.dependencies with
    | nil => simp [hndl]
    | cons d ds =>
      rw [hd] at hmat
      have hds : (σ.store d).isSome = true := hmat d (List.mem_cons_self d ds)
      obtain ⟨col, hcol⟩ := Option.isSome_iff_exists.mp hds
      simp only [List.length_cons, List.map_cons, List.headD_cons,
        Nat.zero_lt_succ, if_pos]
      rw [hcol]
      exact hwf d col hcol

theorem resultOf_async_shape (b : Bucket) (s : Step) (σ₁ : SchedState)
    (hok : okResStep s)
    (hhead : ((depsOf b s σ₁).headD []).length = b.size) (ret : StepRet)
    (heqm : (if σ₁.hasErrors then reallyExecuteStepWithErrors s (depsOf b s σ₁)
        else reallyExecuteStepWithNoErrors s (depsOf b s σ₁)) = .async ret) :
    ∃ col, ret = .arr col ∧ col.length = b.size := by
  have hdirect : ∀ ret', s.execute (depsOf b s σ₁) = .async ret' →
      ∃ col, ret' = .arr col ∧ col.length = b.size := by
    intro ret' hexec
    have hspec := hok (depsOf b s σ₁)
    rw [hexec] at hspec
    cases ret' with
    | arr col => exact ⟨col, rfl, hhead ▸ hspec⟩
    | nonArr => exact absurd hspec (by simp)
  split at heqm
  · simp only [reallyExecuteStepWithErrors] at heqm
    split at heqm
    · split at heqm
      · cases heqm
      · cases heqm
      · rename_i r heqx
        cases heqm
        refine ⟨_, rfl, ?_⟩
        rw [mergeErrorsBackIn_length]
        exact hhead
      · rename_i heqx
        cases heqm
        refine ⟨_, rfl, ?_⟩
        rw [mergeErrorsBackIn_length]
        exact hhead
      · cases heqm
      · cases heqm
    · exact hdirect ret heqm
  · exact hdirect ret heqm

theorem engine_no_fault (b : Bucket)
    (Hplan : ∀ s ∈ b.layerPlan.steps, okResStep s)
    (Hndl : b.noDepsList.length = b.size) :
    ∀ (fuel : Nat) (c : Call) (σ : SchedState),
      storesWF b.size σ → callOK b c σ →
      (∀ e, engine b fuel c σ ≠ .fault e)
      ∧ (∀ σ', engine b fuel c σ = .ok σ' → storesWF b.size σ') := by
  intro fuel
  induction fuel with
  | zero =>
    intro c σ hwf hok
    constructor
    · intro e h; simp [engine] at h
    · intro σ' h; simp [engine] at h
  | succ fuel ih =>
    intro c σ hwf hok
    cases c with
    | exec s =>
      simp only [engine]
      split
      · exact ⟨fun e h => ERes.noConfusion h, fun σ' h => by cases h; exact hwf⟩
      · have hhead : ((depsOf b s
            { σ with inProgress := s.id :: σ.inProgress }).headD []).length = b.size :=
          depsOf_head_length b s _ hwf Hndl hok.2
        split
        · split
          · refine ih _ _ hwf ?_
            exact ⟨_, rfl, by simp [arrayOfLength]⟩
          · rename_i heqv
            refine ih _ _ hwf ?_
            exact validateResult_none_elim _ _ _ heqv
        · refine ih _ _ hwf ?_
          exact ⟨_, rfl, by simp [arrayOfLength]⟩
        · rename_i ret heqm
          split
          · rename_i e heqv
            obtain ⟨col, hcol, hlen⟩ := resultOf_async_shape b s _ hok.1 hhead ret heqm
            subst hcol
            simp [validateResult, hlen] at heqv
          · rename_i heqv
            refine ih _ _ hwf ?_
            exact validateResult_none_elim _ _ _ heqv
        · refine ih _ _ hwf ?_
          exact ⟨_, rfl, by simp [arrayOfLength]⟩
    | completed s ret noNewErrors =>
      obtain ⟨col, hret, hlen⟩ := hok
      subst hret
      simp only [engine]
      split
      · rename_i hcond
        exact absurd hlen hcond
      · split
        · refine ih _ _ ?_ trivial
          intro i colx hx
          simp only [updStore] at hx
          by_cases hi : i = s.id
          · rw [if_pos hi] at hx
            cases hx
            exact hlen
          · rw [if_neg hi] at hx
            exact hwf i colx hx
        · refine ih _ _ ?_ trivial
          intro i colx hx
          simp only [updStore] at hx
          by_cases hi : i = s.id
          · rw [if_pos hi] at hx
            cases hx
            rw [settleColumn_length]
            exact hlen
          · rw [if_neg hi] at hx
            exact hwf i colx hx
    | reallyCompleted s =>
      simp only [engine]
      split
      · exact ⟨fun e h => ERes.noConfusion h, fun σ' h => by cases h; exact hwf⟩
      · exact ih _ _ hwf trivial
    | dispatchDeps ds =>
      cases ds with
      | nil =>
        simp only [engine]
        exact ⟨fun e h => ERes.noConfusion h, fun σ' h => by cases h; exact hwf⟩
      | cons d rest =>
        simp only [engine]
        split
        · exact ih _ _ hwf trivial
        · split
          · rename_i t hlook hguard
            have hmem : t ∈ b.layerPlan.steps := List.mem_of_find?_eq_some hlook
            have hready : ∀ dep ∈ t.dependencies, (σ.store dep).isSome = true := by
              simp only [Bool.and_eq_true] at hguard
              exact fun dep hdep => List.all_eq_true.mp hguard.2 dep hdep
            have ihexec := ih (.exec t) σ hwf ⟨Hplan t hmem, Or.inr hready⟩
            split
            · rename_i σ₂ heq
              exact ih _ _ (ihexec.2 σ₂ heq) trivial
            · rename_i hne
              exact ⟨ihexec.1, fun σ' h => absurd h (hne σ')⟩
          · exact ih _ _ hwf trivial
    | runStarts ss =>
      cases ss with
      | nil =>
        simp only [engine]
        exact ⟨fun e h => ERes.noConfusion h, fun σ' h => by cases h; exact hwf⟩
      | cons s rest =>
        simp only [engine]
        have hs := hok s (List.mem_cons_self s rest)
        have hrest : ∀ t ∈ rest, okResStep t ∧ t.dependencies = [] :=
          fun t ht => hok t (List.mem_cons_of_mem s ht)
        have ihexec := ih (.exec s) σ hwf ⟨hs.1, Or.inl hs.2⟩
        split
        · rename_i σ₂ heq
          exact ih _ _ (ihexec.2 σ₂ heq) hrest
        · rename_i hne
          exact ⟨ihexec.1, fun σ' h => absurd h (hne σ')⟩

theorem reallyCompleted_terminal (b : Bucket) (fuel : Nat) (s : Step)
    (σ : SchedState) (hnd : s.dependentPlans = []) :
    engine b (fuel + 2) (.reallyCompleted s) σ = .ok
      { σ with inProgress := σ.inProgress.filter (fun i => i != s.id)
               pending := σ.pending.filter (fun i => i != s.id) } := by
  rw [show fuel + 2 = (fuel + 1) + 1 from rfl]
  simp only [engine, hnd]
  split <;> rfl

theorem completed_broadcast (b : Bucket) (fuel : Nat) (s : Step) (σ : SchedState)
    (e : JsErr) (noNew : Bool) (hnd : s.dependentPlans = []) :
    ∃ σ', engine b (fuel + 3) (.completed s
        (.arr (arrayOfLength b.size (Cell.error (newCrystalError e)))) noNew) σ = .ok σ'
      ∧ σ'.store s.id = some (arrayOfLength b.size (Cell.error (newCrystalError e)))
      ∧ σ'.hasErrors = σ.hasErrors
      ∧ σ'.isComplete = σ.isComplete := by
  have hsettled : ∀ c ∈ arrayOfLength b.size (Cell.error (newCrystalError e)),
      cellSettled c = true := by
    intro c hc
    simp only [arrayOfLength] at hc
    rw [List.eq_of_mem_replicate hc]
    rfl
  rw [show fuel + 3 = (fuel + 2) + 1 from rfl]
  simp only [engine, hnd]
  rw [if_neg (show ¬(arrayOfLength b.size
    (Cell.error (newCrystalError e))).length ≠ b.size by simp [arrayOfLength])]
  rw [settleColumn_settled _ _ hsettled, colHasRejection_settled _ hsettled]
  split
  · split
    · exact ⟨_, rfl, by simp [updStore], rfl, rfl⟩
    · exact ⟨_, rfl, by simp [updStore], rfl, rfl⟩
  · split
    · exact ⟨_, rfl, by simp [updStore], by simp, rfl⟩
    · exact ⟨_, rfl, by simp [updStore], by simp, rfl⟩

theorem resultOf_throws (s : Step) (deps : List (List Cell)) (he : Bool) (e : JsErr)
    (h : ∀ input, s.execute input = .throws e) :
    (if he = true then reallyExecuteStepWithErrors s deps
      else reallyExecuteStepWithNoErrors s deps) = .throws e := by
  split
  · simp only [reallyExecuteStepWithErrors]
    split
    · rw [h]
    · simp only [reallyExecuteStepWithNoErrors]; exact h _
  · exact h _

theorem resultOf_asyncReject (s : Step) (deps : List (List Cell)) (he : Bool)
    (e : JsErr) (h : ∀ input, s.execute input = .asyncReject e) :
    (if he = true then reallyExecuteStepWithErrors s deps
      else reallyExecuteStepWithNoErrors s deps) = .asyncReject e := by
  split
  · simp only [reallyExecuteStepWithErrors]
    split
    · rw [h]
    · simp only [reallyExecuteStepWithNoErrors]; exact h _
  · exact h _

theorem exec_throws_eq (b : Bucket) (fuel : Nat) (s : Step) (σ : SchedState)
    (e : JsErr) (hin : s.id ∉ σ.inProgress)
    (hexec : ∀ input, s.execute input = .throws e) :
    engine b ((fuel + 3) + 1) (.exec s) σ =
      engine b (fuel + 3) (.completed s (.arr (arrayOfLength b.size
        (Cell.error (newCrystalError e)))) true)
        { σ with inProgress := s.id :: σ.inProgress, hasErrors := true } := by
  rw [engine.eq_2]
  dsimp only
  rw [if_neg (by simp [hin])]
  rw [resultOf_throws s _ σ.hasErrors e hexec]
  simp only [newCrystalErrorCalledWithStepId]

theorem exec_asyncReject_eq (b : Bucket) (fuel : Nat) (s : Step) (σ : SchedState)
    (e : JsErr) (hin : s.id ∉ σ.inProgress)
    (hexec : ∀ input, s.execute input = .asyncReject e) :
    engine b ((fuel + 3) + 1) (.exec s) σ =
      engine b (fuel + 3) (.completed s (.arr (arrayOfLength b.size
        (Cell.error (newCrystalError e)))) false)
        { σ with inProgress := s.id :: σ.inProgress, hasErrors := true } := by
  rw [engine.eq_2]
  dsimp only
  rw [if_neg (by simp [hin])]
  rw [resultOf_asyncReject s _ σ.hasErrors e hexec]
  simp only [newCrystalErrorCalledWithStepId]

/-- Claim C3: for every step that raises synchronously during dispatch or
whose returned future rejects wholesale, the column published for that step
is `bucket.size` copies of one and the same ErrorValue, `bucket.hasErrors`
is true afterwards, and the fault does not escape (the run ends in `.ok`,
not `.fault`).  Stated for a step with no same-layer dependents, so that the
published column is the step's own. -/
theorem claim3_catastrophic_broadcast (b : Bucket) (fuel : Nat) (s : Step)
    (σ : SchedState) (e : JsErr)
    (hin : s.id ∉ σ.inProgress)
    (hnd : s.dependentPlans = []) :
    ((∀ input, s.execute input = .throws e) →
      ∃ σ', executeStep b (fuel + 4) s σ = .ok σ'
        ∧ σ'.store s.id = some (arrayOfLength b.size (Cell.error (newCrystalError e)))
        ∧ σ'.hasErrors = true)
    ∧ ((∀ input, s.execute input = .asyncReject e) →
      ∃ σ', executeStep b (fuel + 4) s σ = .ok σ'
        ∧ σ'.store s.id = some (arrayOfLength b.size (Cell.error (newCrystalError e)))
        ∧ σ'.hasErrors = true) := by
  constructor
  · intro hexec
    unfold executeStep
    rw [show fuel + 4 = (fuel + 3) + 1 from rfl]
    rw [exec_throws_eq b fuel s σ e hin hexec]
    obtain ⟨σ', hrun, hstore, hhe, _⟩ := completed_broadcast b fuel s _ e true hnd
    exact ⟨σ', hrun, hstore, by rw [hhe]⟩
  · intro hexec
    unfold executeStep
    rw [show fuel + 4 = (fuel + 3) + 1 from rfl]
    rw [exec_asyncReject_eq b fuel s σ e hin hexec]
    obtain ⟨σ', hrun, hstore, hhe, _⟩ := completed_broadcast b fuel s _ e false hnd
    exact ⟨σ', hrun, hstore, by rw [hhe]⟩

/-- Witness for C3: the synchronously-raising step and the wholesale-
rejecting step of the size-3 bucket, at concrete inputs. -/
theorem claim3_witness :
    (∃ σ', executeStep throwBucket (6 + 4) throwStep (initState throwBucket) = .ok σ'
      ∧ σ'.store throwStep.id = some (arrayOfLength throwBucket.size
          (Cell.error (newCrystalError (.user 3))))
      ∧ σ'.hasErrors = true)
    ∧ (∃ σ', executeStep throwBucket (6 + 4) rejectStep (initState throwBucket) = .ok σ'
      ∧ σ'.store rejectStep.id = some (arrayOfLength throwBucket.size
          (Cell.error (newCrystalError (.user 4))))
      ∧ σ'.hasErrors = true) :=
  ⟨(claim3_catastrophic_broadcast throwBucket 6 throwStep _ (.user 3)
      (by simp [initState, throwBucket, throwStep]) rfl).1 (fun _ => rfl),
   (claim3_catastrophic_broadcast throwBucket 6 rejectStep _ (.user 4)
      (by simp [initState, throwBucket, rejectStep]) rfl).2 (fun _ => rfl)⟩

/-- Claim C5 (code-bug evidence): the error-value constructor of `error.js`
takes only the original error, so at the executor's call sites — which pass
`(error, step.id)` — the step id is discarded: the errors built for two
different failing steps are identical, and only `originalError` is
retained. -/
theorem claim5_constructor_drops_step_id :
    newCrystalErrorCalledWithStepId (.user 7) 3 = newCrystalErrorCalledWithStepId (.user 7) 4
    ∧ (newCrystalErrorCalledWithStepId (.user 7) 3).originalError = .user 7 :=
  ⟨rfl, rfl⟩

/-- Claim C6 (code-bug evidence): `executeSamePhaseChildren` never sets
`isComplete` — the `bucket.isComplete = true` at source line 363 sits after
both `return` statements — so even a fully completed zero-size bucket
resolves with `isComplete = false`. -/
theorem claim6_isComplete_never_set :
    (∀ (b : Bucket) (σ σ' : SchedState),
      executeSamePhaseChildren b σ = .ok σ' → σ'.isComplete = σ.isComplete)
    ∧ resIsComplete (executeBucket 5 emptyBucket) = some false := by
  constructor
  · intro b σ σ' h
    unfold executeSamePhaseChildren at h
    split at h
    · split at h
      · cases h
      · cases h; rfl
    · cases h
  · rfl

/-- Witness for C6's quantified conjunct at a concrete bucket and state. -/
theorem claim6_witness :
    (resState (executeSamePhaseChildren emptyBucket defaultState) defaultState).isComplete =
      defaultState.isComplete :=
  claim6_isComplete_never_set.1 emptyBucket defaultState _ rfl

/-- Claim C2 counterexample: a bucket whose layer plan has a `root` child
layer plan makes `executeBucket` itself throw — the run ends in `.fault`,
refuting "never rejects; executeBucket never throws". -/
theorem claim2_counterexample :
    resFault (executeBucket 5 rootChildBucket) = some .rootChild := rfl

/-- Claim C2 (amended): `executeBucket` neither throws nor rejects — every
fault is routed into the store as ErrorValues — provided each step's
`execute` fulfils the shape contract, the start steps have no dependencies,
the pre-populated columns have the bucket's size, every child layer plan's
reason is one the hand-off skips, and the start cascade completes every
step. -/
theorem claim2_amended (fuel : Nat) (b : Bucket)
    (Hstore : ∀ i col, b.store i = some col → col.length = b.size)
    (Hndl : b.noDepsList.length = b.size)
    (Hplan : ∀ s ∈ b.layerPlan.steps, okResStep s)
    (Hstart : ∀ s ∈ b.layerPlan.startSteps, okResStep s ∧ s.dependencies = [])
    (Hchildren : ∀ r ∈ b.layerPlan.children, childFault r = none)
    (Hcomplete : ∀ σ,
      engine b fuel (.runStarts b.layerPlan.startSteps) (initState b) = .ok σ →
      σ.pending = []) :
    ∀ e, executeBucket fuel b ≠ .fault e := by
  intro e h
  unfold executeBucket at h
  have hwf0 : storesWF b.size (initState b) := fun i col hc => Hstore i col hc
  have hnf := engine_no_fault b Hplan Hndl fuel (.runStarts b.layerPlan.startSteps)
      (initState b) hwf0 Hstart
  cases heng : engine b fuel (.runStarts b.layerPlan.startSteps) (initState b) with
  | ok σ =>
    rw [heng] at h
    dsimp only at h
    unfold executeSamePhaseChildren at h
    rw [if_pos (show σ.pending.isEmpty = true by rw [Hcomplete σ heng]; rfl)] at h
    have hnone : (b.layerPlan.children.filterMap childFault).head? = none := by
      rw [List.head?_eq_none_iff, List.filterMap_eq_nil_iff]
      exact Hchildren
    rw [hnone] at h
    cases h
  | fault e2 =>
    exact hnf.1 e2 heng
  | fuelOut =>
    rw [heng] at h
    dsimp only at h
    cases h

theorem echoStep_ok : okResStep echoStep := by
  intro input
  show (List.replicate (input.headD []).length (Cell.value 1)).length =
    (input.headD []).length
  simp

/-- Witness for C2 (amended): a fault-free bucket with one well-shaped step
and only skippable children. -/
theorem claim2_amended_witness : executeBucket 10 okBucket ≠ .fault .rootChild :=
  claim2_amended 10 okBucket
    (by intro i col h; simp [okBucket] at h)
    rfl
    (by
      intro s hs
      simp only [okBucket, List.mem_singleton] at hs
      exact hs ▸ echoStep_ok)
    (by
      intro s hs
      simp only [okBucket, List.mem_singleton] at hs
      exact hs ▸ ⟨echoStep_ok, rfl⟩)
    (by decide)
    (by
      intro σ h
      injection h with h2
      rw [← h2]
      decide)
    .rootChild

/-- Claim C9: `bucket.hasErrors` is monotone nondecreasing — no operation of
the executor (any interpreter call), and no whole-bucket run, ever changes
it from true to false. -/
theorem claim9_hasErrors_monotone (b : Bucket) (fuel : Nat) :
    (∀ (c : Call) (σ σ' : SchedState),
      engine b fuel c σ = .ok σ' → σ.hasErrors = true → σ'.hasErrors = true)
    ∧ (∀ σ', executeBucket fuel b = .ok σ' → b.hasErrors = true →
        σ'.hasErrors = true) := by
  refine ⟨fun c σ σ' h ht => engine_hasErrors_mono b fuel c σ σ' h ht, ?_⟩
  intro σ' h hb
  unfold executeBucket at h
  cases heng : engine b fuel (.runStarts b.layerPlan.startSteps) (initState b) with
  | ok σ =>
    rw [heng] at h
    dsimp only at h
    have hσ : σ.hasErrors = true := engine_hasErrors_mono b fuel _ _ _ heng hb
    unfold executeSamePhaseChildren at h
    split at h
    · split at h
      · cases h
      · cases h; exact hσ
    · cases h
  | fault e => rw [heng] at h; dsimp only at h; cases h
  | fuelOut => rw [heng] at h; dsimp only at h; cases h

/-- Witness for C9: a bucket entering with `hasErrors = true` still has it
after the run. -/
theorem claim9_witness :
    (resState (executeBucket 5 taintedBucket) defaultState).hasErrors = true :=
  (claim9_hasErrors_monotone taintedBucket 5).2 _ rfl rfl

/-- Claim C10: with no ErrorValue in any dependency column the error-aware
invoker delegates to the step on the unmodified dependency columns — the
same invocation a direct call performs — and both halves of the §4.3
pipeline are the identity: index-filtering keeps every column unchanged and
merge-back with an empty error map returns the results unchanged. -/
theorem claim10_no_errors_identity (s : Step) (deps : List (List Cell))
    (hnoerr : foundErrors deps = false) :
    reallyExecuteStepWithErrors s deps = reallyExecuteStepWithNoErrors s deps
    ∧ (∀ col ∈ deps, filterNoErr deps col = col)
    ∧ (∀ (results : List Cell) (n : Nat), results.length = n →
        mergeErrorsBackIn results (firstErrAt deps) 0 n = results) := by
  refine ⟨?_, ?_, ?_⟩
  · simp [reallyExecuteStepWithErrors, hnoerr]
  · intro col hcol
    unfold filterNoErr
    exact filterIdx_all _
      (fun i => by rw [firstErrAt_of_not_found deps hnoerr i]; rfl) col 0
  · intro results n hlen
    exact mergeErrorsBackIn_all_none _ (firstErrAt_of_not_found deps hnoerr)
      n 0 results hlen

/-- Witness for C10 at concrete error-free columns. -/
theorem claim10_witness :
    reallyExecuteStepWithErrors cleanStep cleanDeps =
      reallyExecuteStepWithNoErrors cleanStep cleanDeps
    ∧ filterNoErr cleanDeps [Cell.value 1, Cell.value 2] = [Cell.value 1, Cell.value 2]
    ∧ mergeErrorsBackIn [Cell.value 10, Cell.value 20] (firstErrAt cleanDeps) 0 2 =
        [Cell.value 10, Cell.value 20] := by
  have h := claim10_no_errors_identity cleanStep cleanDeps (by decide)
  exact ⟨h.1, h.2.1 _ (by decide), h.2.2 _ 2 rfl⟩

theorem depsOf_set_inProgress (b : Bucket) (s : Step) (σ : SchedState) (x : List Nat) :
    depsOf b s { σ with inProgress := x } = depsOf b s σ := rfl

theorem exec_sync_valid_eq (b : Bucket) (fuel : Nat) (s : Step) (σ : SchedState)
    (ret : StepRet) (hin : s.id ∉ σ.inProgress) (herr : σ.hasErrors = false)
    (hx : s.execute (depsOf b s σ) = .sync ret)
    (hv : validateResult b.size s ret = none) :
    engine b (fuel + 1) (.exec s) σ =
      engine b fuel (.completed s ret true)
        { σ with inProgress := s.id :: σ.inProgress } := by
  rw [engine.eq_2]
  dsimp only
  rw [if_neg (by simp [hin])]
  simp only [depsOf_set_inProgress]
  rw [if_neg (show ¬(σ.hasErrors = true) by simp [herr])]
  simp only [reallyExecuteStepWithNoErrors]
  rw [hx]
  dsimp only
  rw [hv]

theorem exec_async_valid_eq (b : Bucket) (fuel : Nat) (s : Step) (σ : SchedState)
    (ret : StepRet) (hin : s.id ∉ σ.inProgress) (herr : σ.hasErrors = false)
    (hx : s.execute (depsOf b s σ) = .async ret)
    (hv : validateResult b.size s ret = none) :
    engine b (fuel + 1) (.exec s) σ =
      engine b fuel (.completed s ret false)
        { σ with inProgress := s.id :: σ.inProgress } := by
  rw [engine.eq_2]
  dsimp only
  rw [if_neg (by simp [hin])]
  simp only [depsOf_set_inProgress]
  rw [if_neg (show ¬(σ.hasErrors = true) by simp [herr])]
  simp only [reallyExecuteStepWithNoErrors]
  rw [hx]
  dsimp only
  rw [hv]

theorem exec_sync_shape_violation_eq (b : Bucket) (fuel : Nat) (s : Step)
    (σ : SchedState) (ret : StepRet) (e : JsErr) (hin : s.id ∉ σ.inProgress)
    (herr : σ.hasErrors = false)
    (hx : s.execute (depsOf b s σ) = .sync ret)
    (hv : validateResult b.size s ret = some e) :
    engine b (fuel + 1) (.exec s) σ =
      engine b fuel (.completed s (.arr (arrayOfLength b.size
        (Cell.error (newCrystalError e)))) true)
        { σ with inProgress := s.id :: σ.inProgress, hasErrors := true } := by
  rw [engine.eq_2]
  dsimp only
  rw [if_neg (by simp [hin])]
  simp only [depsOf_set_inProgress]
  rw [if_neg (show ¬(σ.hasErrors = true) by simp [herr])]
  simp only [reallyExecuteStepWithNoErrors]
  rw [hx]
  dsimp only
  rw [hv]
  simp only [newCrystalErrorCalledWithStepId]

theorem exec_async_shape_violation_eq (b : Bucket) (fuel : Nat) (s : Step)
    (σ : SchedState) (ret : StepRet) (e : JsErr) (hin : s.id ∉ σ.inProgress)
    (herr : σ.hasErrors = false)
    (hx : s.execute (depsOf b s σ) = .async ret)
    (hv : validateResult b.size s ret = some e) :
    engine b (fuel + 1) (.exec s) σ = .fault e := by
  rw [engine.eq_2]
  dsimp only
  rw [if_neg (by simp [hin])]
  simp only [depsOf_set_inProgress]
  rw [if_neg (show ¬(σ.hasErrors = true) by simp [herr])]
  simp only [reallyExecuteStepWithNoErrors]
  rw [hx]
  dsimp only
  rw [hv]

theorem exec_hasErrors_sync_eq (b : Bucket) (fuel : Nat) (s : Step) (σ : SchedState)
    (ret : StepRet) (hin : s.id ∉ σ.inProgress) (herr : σ.hasErrors = true)
    (hx : reallyExecuteStepWithErrors s (depsOf b s σ) = .sync ret)
    (hv : validateResult b.size s ret = none) :
    engine b (fuel + 1) (.exec s) σ =
      engine b fuel (.completed s ret true)
        { σ with inProgress := s.id :: σ.inProgress } := by
  rw [engine.eq_2]
  dsimp only
  rw [if_neg (by simp [hin])]
  simp only [depsOf_set_inProgress]
  rw [if_pos herr]
  rw [hx]
  dsimp only
  rw [hv]

theorem completed_fast (b : Bucket) (fuel : Nat) (s : Step) (σ : SchedState)
    (col : List Cell) (hlen : col.length = b.size) (hss : s.isSyncAndSafe = true)
    (hnd : s.dependentPlans = []) :
    ∃ σ', engine b (fuel + 3) (.completed s (.arr col) true) σ = .ok σ'
      ∧ σ'.store s.id = some col
      ∧ σ'.hasErrors = σ.hasErrors := by
  rw [show fuel + 3 = (fuel + 2) + 1 from rfl]
  rw [engine.eq_4]
  rw [if_neg (show ¬(col.length ≠ b.size) by simp [hlen])]
  rw [if_pos (show (s.isSyncAndSafe && true) = true by simp [hss])]
  rw [reallyCompleted_terminal b fuel s _ hnd]
  exact ⟨_, rfl, by simp [updStore], rfl⟩

theorem completed_slow (b : Bucket) (fuel : Nat) (s : Step) (σ : SchedState)
    (col : List Cell) (noNew : Bool) (hlen : col.length = b.size)
    (hcond : (s.isSyncAndSafe && noNew) = false) (hnd : s.dependentPlans = []) :
    ∃ σ', engine b (fuel + 3) (.completed s (.arr col) noNew) σ = .ok σ'
      ∧ σ'.store s.id = some (settleColumn s.id col)
      ∧ σ'.hasErrors = (σ.hasErrors || colHasRejection col) := by
  rw [show fuel + 3 = (fuel + 2) + 1 from rfl]
  rw [engine.eq_4]
  rw [if_neg (show ¬(col.length ≠ b.size) by simp [hlen])]
  rw [if_neg (show ¬((s.isSyncAndSafe && noNew) = true) by simp [hcond])]
  rw [reallyCompleted_terminal b fuel s _ hnd]
  exact ⟨_, rfl, by simp [updStore], rfl⟩

theorem getD_get?_cell (l : List Cell) (n : Nat) :
    l.getD n Cell.undefined = (l.get? n).getD Cell.undefined := by
  induction l generalizing n with
  | nil => cases n <;> rfl
  | cons a t ih => cases n with
    | zero => rfl
    | succ m => exact ih m

/-- Claim C4 counterexample: a step whose synchronous result has the wrong
length (0 instead of `bucket.size` = 1).  The claim says the executor
surfaces the fault as an exception; instead the run resolves (`.ok`) and
the step's column is a broadcast ErrorValue wrapping the shape-violation
error — the fault was recovered into the store, not surfaced. -/
theorem claim4_counterexample :
    resIsOk (executeBucket 10 shortBucket) = true
    ∧ resStoreAt 0 (executeBucket 10 shortBucket) =
        some (some [Cell.error (newCrystalError (.shapeBadLength 0 0 1))])
    ∧ resHasErrors (executeBucket 10 shortBucket) = some true :=
  ⟨rfl, rfl, rfl⟩

/-- Claim C4 (amended): the shape check throws inside `completedStep`; when
the ill-shaped result was delivered through a future (or the future fulfils
with a non-array) the exception escapes the executor as a rejection, but
when the result was synchronous, `executeStep`'s catch recovers it into a
broadcast ErrorValue column with `hasErrors` set. -/
theorem claim4_amended (b : Bucket) (fuel : Nat) (s : Step) (σ : SchedState)
    (hin : s.id ∉ σ.inProgress) (herr : σ.hasErrors = false) :
    (∀ col, s.execute (depsOf b s σ) = .async (.arr col) → col.length ≠ b.size →
      executeStep b (fuel + 1) s σ = .fault (.shapeBadLength s.id col.length b.size))
    ∧ (s.execute (depsOf b s σ) = .async .nonArr →
      executeStep b (fuel + 1) s σ = .fault (.shapeNonArray s.id))
    ∧ (∀ col, s.execute (depsOf b s σ) = .sync (.arr col) → col.length ≠ b.size →
      s.dependentPlans = [] →
      ∃ σ', executeStep b (fuel + 4) s σ = .ok σ'
        ∧ σ'.store s.id = some (arrayOfLength b.size (Cell.error
            (newCrystalError (.shapeBadLength s.id col.length b.size))))
        ∧ σ'.hasErrors = true) := by
  refine ⟨?_, ?_, ?_⟩
  · intro col hx hlen
    unfold executeStep
    exact exec_async_shape_violation_eq b fuel s σ (.arr col) _ hin herr hx
      (by simp [validateResult, hlen])
  · intro hx
    unfold executeStep
    exact exec_async_shape_violation_eq b fuel s σ .nonArr _ hin herr hx
      (by simp [validateResult])
  · intro col hx hlen hnd
    unfold executeStep
    rw [show fuel + 4 = (fuel + 3) + 1 from rfl]
    rw [exec_sync_shape_violation_eq b (fuel + 3) s σ (.arr col)
      (.shapeBadLength s.id col.length b.size) hin herr hx
      (by simp [validateResult, hlen])]
    obtain ⟨σ', hrun, hstore, hhe, _⟩ := completed_broadcast b fuel s _ _ true hnd
    exact ⟨σ', hrun, hstore, by rw [hhe]⟩

/-- Witness for C4 (amended): the asynchronously-ill-shaped step faults; the
synchronously-ill-shaped step is recovered into a broadcast error column. -/
theorem claim4_amended_witness :
    executeStep shortBucket (6 + 1) asyncShortStep (plainState [0] (fun _ => none) false) =
      .fault (.shapeBadLength 0 0 1)
    ∧ resStoreAt 0 (executeStep shortBucket (6 + 4) shortStep
        (plainState [0] (fun _ => none) false)) =
      some (some (arrayOfLength 1 (Cell.error (newCrystalError (.shapeBadLength 0 0 1))))) := by
  constructor
  · exact (claim4_amended shortBucket 6 asyncShortStep (plainState [0] (fun _ => none) false)
      (by simp [plainState]) rfl).1 [] rfl (by decide)
  · obtain ⟨σ', hrun, hstore, _⟩ := (claim4_amended shortBucket 6 shortStep
      (plainState [0] (fun _ => none) false) (by simp [plainState]) rfl).2.2 [] rfl
      (by decide) rfl
    rw [hrun]
    simpa [resStoreAt] using hstore

/-- Claim C8 counterexample: with `hasErrors` false and a pre-populated
dependency column already holding an ErrorValue, a step that completes and
even publishes that ErrorValue leaves `hasErrors` false — neither an error
in an input column nor an ErrorValue in the published column triggers the
transition. -/
theorem claim8_counterexample :
    passBucket.store 0 = some [errCell]
    ∧ isCrystalError errCell = true
    ∧ resStoreAt 1 (executeBucket 10 passBucket) = some (some [errCell])
    ∧ resHasErrors (executeBucket 10 passBucket) = some false :=
  ⟨rfl, rfl, rfl, rfl⟩

/-- Claim C8 (amended): `hasErrors` transitions false→true exactly when a
rejection is observed — a rejected promise entry inside a step's settled
result column (synchronous or asynchronous delivery), a synchronous raise,
or a wholesale rejection of the step's future. -/
theorem claim8_amended (b : Bucket) (fuel : Nat) (s : Step) (σ : SchedState)
    (hin : s.id ∉ σ.inProgress) (hnd : s.dependentPlans = []) :
    (∀ col, σ.hasErrors = false → s.isSyncAndSafe = false →
      s.execute (depsOf b s σ) = .sync (.arr col) → col.length = b.size →
      colHasRejection col = true →
      ∃ σ', executeStep b (fuel + 4) s σ = .ok σ' ∧ σ'.hasErrors = true)
    ∧ (∀ col, σ.hasErrors = false →
      s.execute (depsOf b s σ) = .async (.arr col) → col.length = b.size →
      colHasRejection col = true →
      ∃ σ', executeStep b (fuel + 4) s σ = .ok σ' ∧ σ'.hasErrors = true)
    ∧ (∀ e, (∀ input, s.execute input = .throws e) →
      ∃ σ', executeStep b (fuel + 4) s σ = .ok σ' ∧ σ'.hasErrors = true)
    ∧ (∀ e, (∀ input, s.execute input = .asyncReject e) →
      ∃ σ', executeStep b (fuel + 4) s σ = .ok σ' ∧ σ'.hasErrors = true) := by
  refine ⟨?_, ?_, ?_, ?_⟩
  · intro col hHE hss hx hlen hrej
    unfold executeStep
    rw [show fuel + 4 = (fuel + 3) + 1 from rfl]
    rw [exec_sync_valid_eq b (fuel + 3) s σ (.arr col) hin hHE hx
      (by simp [validateResult, hlen])]
    obtain ⟨σ', hrun, _, hhe⟩ := completed_slow b fuel s _ col true hlen
      (by simp [hss]) hnd
    exact ⟨σ', hrun, by rw [hhe]; simp [hrej]⟩
  · intro col hHE hx hlen hrej
    unfold executeStep
    rw [show fuel + 4 = (fuel + 3) + 1 from rfl]
    rw [exec_async_valid_eq b (fuel + 3) s σ (.arr col) hin hHE hx
      (by simp [validateResult, hlen])]
    obtain ⟨σ', hrun, _, hhe⟩ := completed_slow b fuel s _ col false hlen
      (by simp) hnd
    exact ⟨σ', hrun, by rw [hhe]; simp [hrej]⟩
  · intro e hexec
    unfold executeStep
    rw [show fuel + 4 = (fuel + 3) + 1 from rfl]
    rw [exec_throws_eq b fuel s σ e hin hexec]
    obtain ⟨σ', hrun, _, hhe, _⟩ := completed_broadcast b fuel s _ e true hnd
    exact ⟨σ', hrun, by rw [hhe]⟩
  · intro e hexec
    unfold executeStep
    rw [show fuel + 4 = (fuel + 3) + 1 from rfl]
    rw [exec_asyncReject_eq b fuel s σ e hin hexec]
    obtain ⟨σ', hrun, _, hhe, _⟩ := completed_broadcast b fuel s _ e false hnd
    exact ⟨σ', hrun, by rw [hhe]⟩

/-- Witness for C8 (amended): a step whose synchronous column contains one
rejected promise entry flips `hasErrors` to true. -/
theorem claim8_amended_witness :
    resHasErrors (executeStep rejCellBucket (6 + 4) rejCellStep
      (plainState [0] (fun _ => none) false)) = some true := by
  obtain ⟨σ', hrun, hhe⟩ := (claim8_amended rejCellBucket 6 rejCellStep
      (plainState [0] (fun _ => none) false) (by simp [plainState]) rfl).1
      [Cell.rejected (.user 8)] rfl rfl rfl rfl (by decide)
  rw [hrun]
  simpa [resHasErrors] using hhe

/-- Claim C1: under the error-aware invoker (`hasErrors` true), with
dependency columns of length `bucket.size` and at least one error row, the
published output column has length `bucket.size`; its entry at every row
holding an error is exactly the first such ErrorValue in declared
dependency-column order, and every error-free row receives the next
unconsumed entry, in order, of the column the step returned for the
filtered batch. -/
theorem claim1_invoker_merge (b : Bucket) (fuel : Nat) (s : Step) (σ : SchedState)
    (R : List Cell)
    (hin : s.id ∉ σ.inProgress)
    (herr : σ.hasErrors = true)
    (hnd : s.dependentPlans = [])
    (hdeps : s.dependencies ≠ [])
    (hmat : ∀ d ∈ s.dependencies, ∃ col, σ.store d = some col ∧ col.length = b.size)
    (hfe : foundErrors (depsOf b s σ) = true)
    (hexec : s.execute ((depsOf b s σ).map (filterNoErr (depsOf b s σ))) = .sync (.arr R))
    (hRlen : R.length + errRowsBetween (firstErrAt (depsOf b s σ)) 0 b.size = b.size)
    (hRsettled : ∀ c ∈ R, cellSettled c = true) :
    ∃ σ' M, executeStep b (fuel + 4) s σ = .ok σ'
      ∧ σ'.store s.id = some M
      ∧ M.length = b.size
      ∧ (∀ i e, i < b.size → firstErrAt (depsOf b s σ) i = some e →
          M.get? i = some (Cell.error e))
      ∧ (∀ i, i < b.size → firstErrAt (depsOf b s σ) i = none →
          M.get? i = R.get? (nonErrBetween (firstErrAt (depsOf b s σ)) 0 i)) := by
  have hrc : ((depsOf b s σ).headD []).length = b.size := by
    cases hd : s.dependencies with
    | nil => exact absurd hd hdeps
    | cons d ds =>
      obtain ⟨col, hcol, hlen⟩ := hmat d (by rw [hd]; exact List.mem_cons_self d ds)
      unfold depsOf
      rw [hd]
      rw [if_pos (by simp)]
      simp only [List.map_cons, List.headD_cons]
      rw [hcol]
      exact hlen
  have hM : reallyExecuteStepWithErrors s (depsOf b s σ) =
      .sync (.arr (mergeErrorsBackIn R (firstErrAt (depsOf b s σ)) 0 b.size)) := by
    simp only [reallyExecuteStepWithErrors]
    rw [if_pos hfe]
    rw [hexec]
    dsimp only
    rw [hrc]
  have hMlen : (mergeErrorsBackIn R (firstErrAt (depsOf b s σ)) 0 b.size).length =
      b.size := mergeErrorsBackIn_length _ b.size 0 R
  have hv : validateResult b.size s
      (.arr (mergeErrorsBackIn R (firstErrAt (depsOf b s σ)) 0 b.size)) = none := by
    simp [validateResult, hMlen]
  have hMsettled : ∀ c ∈ mergeErrorsBackIn R (firstErrAt (depsOf b s σ)) 0 b.size,
      cellSettled c = true := by
    intro c hc
    rcases mergeErrorsBackIn_mem _ b.size 0 R c hc with ⟨e, rfl⟩ | hmem | rfl
    · rfl
    · exact hRsettled c hmem
    · rfl
  have hgetErr : ∀ i e, i < b.size → firstErrAt (depsOf b s σ) i = some e →
      (mergeErrorsBackIn R (firstErrAt (depsOf b s σ)) 0 b.size).get? i =
        some (Cell.error e) := by
    intro i e hi hei
    have h := mergeErrorsBackIn_get (firstErrAt (depsOf b s σ)) b.size 0 i R hi
    rw [Nat.zero_add, hei] at h
    exact h
  have hgetOk : ∀ i, i < b.size → firstErrAt (depsOf b s σ) i = none →
      (mergeErrorsBackIn R (firstErrAt (depsOf b s σ)) 0 b.size).get? i =
        R.get? (nonErrBetween (firstErrAt (depsOf b s σ)) 0 i) := by
    intro i hi hni
    have h := mergeErrorsBackIn_get (firstErrAt (depsOf b s σ)) b.size 0 i R hi
    rw [Nat.zero_add, hni] at h
    have hRlen' : R.length = nonErrBetween (firstErrAt (depsOf b s σ)) 0 b.size := by
      have := nonErr_add_err (firstErrAt (depsOf b s σ)) b.size 0
      omega
    have h1 : nonErrBetween (firstErrAt (depsOf b s σ)) 0 (i + 1) =
        nonErrBetween (firstErrAt (depsOf b s σ)) 0 i + 1 := by
      rw [nonErrBetween_succ_top, Nat.zero_add, hni]
      simp
    have h2 : nonErrBetween (firstErrAt (depsOf b s σ)) 0 (i + 1) ≤
        nonErrBetween (firstErrAt (depsOf b s σ)) 0 b.size :=
      nonErrBetween_mono _ 0 (i + 1) b.size (by omega)
    have hlt : nonErrBetween (firstErrAt (depsOf b s σ)) 0 i < R.length := by
      rw [hRlen']
      omega
    have hx := List.get?_eq_get hlt
    rw [getD_get?_cell, hx, Option.getD_some] at h
    rw [hx]
    exact h
  unfold executeStep
  rw [show fuel + 4 = (fuel + 3) + 1 from rfl]
  rw [exec_hasErrors_sync_eq b (fuel + 3) s σ
    (.arr (mergeErrorsBackIn R (firstErrAt (depsOf b s σ)) 0 b.size)) hin herr hM hv]
  cases hss : s.isSyncAndSafe with
  | true =>
    obtain ⟨σ', hrun, hstore, _⟩ := completed_fast b fuel s _
      (mergeErrorsBackIn R (firstErrAt (depsOf b s σ)) 0 b.size) hMlen hss hnd
    exact ⟨σ', _, hrun, hstore, hMlen, hgetErr, hgetOk⟩
  | false =>
    obtain ⟨σ', hrun, hstore, _⟩ := completed_slow b fuel s _
      (mergeErrorsBackIn R (firstErrAt (depsOf b s σ)) 0 b.size) true hMlen
      (by simp [hss]) hnd
    rw [settleColumn_settled _ _ hMsettled] at hstore
    exact ⟨σ', _, hrun, hstore, hMlen, hgetErr, hgetOk⟩

/-- Witness for C1: one dependency column `[ERR, 9]` of size 2, the step
returns `[5]` for the filtered batch; the published column is `[ERR, 5]`. -/
theorem claim1_witness :
    resStoreAt 1 (executeStep invokerBucket (6 + 4) invokerStep invokerState) =
      some (some [errCell, Cell.value 5]) := by
  obtain ⟨σ', M, hrun, hstore, hMlen, hgetErr, hgetOk⟩ := claim1_invoker_merge
    invokerBucket 6 invokerStep invokerState [Cell.value 5]
    (by simp [invokerState, plainState]) rfl rfl (by decide)
    (by
      intro d hd
      simp only [invokerStep, List.mem_singleton] at hd
      subst hd
      exact ⟨[errCell, Cell.value 9], rfl, rfl⟩)
    (by decide) rfl (by decide) (by decide)
  have hMeq : M = [errCell, Cell.value 5] := by
    apply List.ext
    intro n
    match n with
    | 0 => exact hgetErr 0 (newCrystalError (.user 5)) (by decide) (by decide)
    | 1 =>
      rw [hgetOk 1 (by decide) (by decide)]
      decide
    | (n + 2) =>
      rw [List.get?_eq_none.mpr (by rw [hMlen]; show 2 ≤ n + 2; omega)]
      simp
  have hstore1 : σ'.store 1 = some M := hstore
  rw [hrun]
  simp only [resStoreAt]
  rw [hstore1, hMeq]

namespace Dispatch

theorem Inv_init (P : TPlan) (store₀ : Nat → Option (List Cell)) :
    Inv P (init P store₀) := by
  refine ⟨?_, ?_, ?_, ?_, ?_, ?_⟩
  · intro i; exact Nat.zero_le 1
  · intro i hi; simp [init] at hi
  · intro i hi; simp [init] at hi
  · intro s _ _; rfl
  · intro s hs _
    exact List.mem_map_of_mem (fun t => t.id) hs
  · intro s _ h1; simp [init] at h1

theorem Inv_preserved (P : TPlan)
    (Hstart : ∀ s ∈ P.startSteps, s.dependencies = [] ∧ s ∈ P.steps)
    (Hrev : ∀ p ∈ P.steps, ∀ s ∈ P.steps, s.id ∈ p.dependentPlans →
      p.id ∈ s.dependencies)
    (Huniq : ∀ s ∈ P.steps, ∀ t ∈ P.steps, s.id = t.id →
      s.dependencies = t.dependencies)
    (σ σ' : TState) (htr : Trans P σ σ') (hinv : Inv P σ) : Inv P σ' := by
  obtain ⟨h1, h2, h3, h4, h5, h6⟩ := hinv
  cases htr with
  | start s hs hns =>
    have invoked0 : σ.invoked s.id = 0 := h4 s hs hns
    have hnotmem : s.id ∉ σ.inProgress := by
      intro hmem
      have := (h2 s.id hmem).2
      omega
    simp only [stepEnter]
    rw [if_neg (by simp [hnotmem])]
    refine ⟨?_, ?_, ?_, ?_, ?_, ?_⟩
    · intro i
      dsimp only
      by_cases hi : i = s.id
      · rw [if_pos hi, hi]
        omega
      · rw [if_neg hi]
        exact h1 i
    · intro i hi
      dsimp only at hi ⊢
      rcases List.mem_cons.mp hi with rfl | hi'
      · refine ⟨h5 s (Hstart s hs).2 invoked0, ?_⟩
        rw [if_pos rfl]
        omega
      · have hne : i ≠ s.id := by
          intro heq
          have hmem : s.id ∈ σ.inProgress := heq ▸ hi'
          have := (h2 s.id hmem).2
          omega
        refine ⟨(h2 i hi').1, ?_⟩
        rw [if_neg hne]
        exact (h2 i hi').2
    · intro i hi
      dsimp only at hi ⊢
      by_cases hieq : i = s.id
      · exact Or.inl (hieq ▸ List.mem_cons_self s.id σ.inProgress)
      · rw [if_neg hieq] at hi
        rcases h3 i hi with hin | hpn
        · exact Or.inl (List.mem_cons_of_mem _ hin)
        · exact Or.inr hpn
    · intro t ht hts
      dsimp only at hts ⊢
      have hts1 : t.id ≠ s.id := fun heq => hts (heq ▸ List.mem_cons_self _ _)
      have hts2 : t.id ∉ σ.started := fun hmem => hts (List.mem_cons_of_mem _ hmem)
      rw [if_neg hts1]
      exact h4 t ht hts2
    · intro t ht h0
      dsimp only at h0 ⊢
      by_cases heq : t.id = s.id
      · rw [if_pos heq] at h0
        omega
      · rw [if_neg heq] at h0
        exact h5 t ht h0
    · intro t ht hge d hd
      dsimp only at hge ⊢
      by_cases heq : t.id = s.id
      · have hdeps : t.dependencies = s.dependencies :=
          Huniq t ht s (Hstart s hs).2 heq
        rw [hdeps, (Hstart s hs).1] at hd
        exact absurd hd (List.not_mem_nil d)
      · rw [if_neg heq] at hge
        exact h6 t ht hge d hd
  | dispatch parent s hp hsm hedge hpdone hpend hready =>
    cases hcon : σ.inProgress.contains s.id with
    | true =>
      simp only [stepEnter]
      rw [if_pos (by simpa using hcon)]
      exact ⟨h1, h2, h3, h4, h5, h6⟩
    | false =>
      have hnotmem : s.id ∉ σ.inProgress := by
        intro hmem
        have hc : σ.inProgress.contains s.id = true := by simpa using hmem
        rw [hcon] at hc
        cases hc
      have invoked0 : σ.invoked s.id = 0 := by
        have hne1 : σ.invoked s.id ≠ 1 := by
          intro h
          rcases h3 s.id h with hmem | hnp
          · exact hnotmem hmem
          · exact hnp hpend
        have := h1 s.id
        omega
      have hparent_dep : parent.id ∈ s.dependencies := Hrev parent hp s hsm hedge
      have hnostart : ∀ t ∈ P.startSteps, t.id ≠ s.id := by
        intro t ht heq
        have hdeps : t.dependencies = s.dependencies :=
          Huniq t (Hstart t ht).2 s hsm heq
        rw [(Hstart t ht).1] at hdeps
        rw [← hdeps] at hparent_dep
        exact absurd hparent_dep (List.not_mem_nil _)
      simp only [stepEnter]
      rw [if_neg (by simp [hnotmem])]
      refine ⟨?_, ?_, ?_, ?_, ?_, ?_⟩
      · intro i
        dsimp only
        by_cases hi : i = s.id
        · rw [if_pos hi, hi]
          omega
        · rw [if_neg hi]
          exact h1 i
      · intro i hi
        dsimp only at hi ⊢
        rcases List.mem_cons.mp hi with rfl | hi'
        · refine ⟨hpend, ?_⟩
          rw [if_pos rfl]
          omega
        · have hne : i ≠ s.id := fun heq => hnotmem (heq ▸ hi')
          refine ⟨(h2 i hi').1, ?_⟩
          rw [if_neg hne]
          exact (h2 i hi').2
      · intro i hi
        dsimp only at hi ⊢
        by_cases hieq : i = s.id
        · exact Or.inl (hieq ▸ List.mem_cons_self s.id σ.inProgress)
        · rw [if_neg hieq] at hi
          rcases h3 i hi with hin | hpn
          · exact Or.inl (List.mem_cons_of_mem _ hin)
          · exact Or.inr hpn
      · intro t ht hts
        dsimp only at hts ⊢
        rw [if_neg (hnostart t ht)]
        exact h4 t ht hts
      · intro t ht h0
        dsimp only at h0 ⊢
        by_cases heq : t.id = s.id
        · rw [if_pos heq] at h0
          omega
        · rw [if_neg heq] at h0
          exact h5 t ht h0
      · intro t ht hge d hd
        dsimp only at hge ⊢
        by_cases heq : t.id = s.id
        · have hdeps : t.dependencies = s.dependencies := Huniq t ht s hsm heq
          rw [hdeps] at hd
          exact hready d hd
        · rw [if_neg heq] at hge
          exact h6 t ht hge d hd
  | complete s hsm hin col =>
    have hsome : ∀ d, (σ.store d).isSome = true →
        ((publish σ s col).store d).isSome = true := by
      intro d hd
      simp only [publish, updStore]
      by_cases hdq : d = s.id
      · simp [hdq]
      · simpa [hdq] using hd
    refine ⟨h1, ?_, ?_, h4, ?_, ?_⟩
    · intro i hi
      dsimp only [publish] at hi ⊢
      have hi' := List.mem_filter.mp hi
      exact ⟨List.mem_filter.mpr ⟨(h2 i hi'.1).1, hi'.2⟩, (h2 i hi'.1).2⟩
    · intro i hi
      dsimp only [publish] at hi ⊢
      rcases h3 i hi with hmem | hnp
      · by_cases hieq : i = s.id
        · refine Or.inr (fun hmemf => ?_)
          have := (List.mem_filter.mp hmemf).2
          simp [hieq] at this
        · exact Or.inl (List.mem_filter.mpr ⟨hmem, by simp [hieq]⟩)
      · exact Or.inr (fun hmemf => hnp (List.mem_filter.mp hmemf).1)
    · intro t ht h0
      dsimp only [publish] at h0 ⊢
      have hmem := h5 t ht h0
      have htne : t.id ≠ s.id := by
        intro heq
        have h1' := (h2 s.id hin).2
        rw [heq] at h0
        omega
      exact List.mem_filter.mpr ⟨hmem, by simp [htne]⟩
    · intro t ht hge d hd
      exact hsome d (h6 t ht hge d hd)

theorem Inv_reach (P : TPlan)
    (Hstart : ∀ s ∈ P.startSteps, s.dependencies = [] ∧ s ∈ P.steps)
    (Hrev : ∀ p ∈ P.steps, ∀ s ∈ P.steps, s.id ∈ p.dependentPlans →
      p.id ∈ s.dependencies)
    (Huniq : ∀ s ∈ P.steps, ∀ t ∈ P.steps, s.id = t.id →
      s.dependencies = t.dependencies)
    (store₀ : Nat → Option (List Cell)) :
    ∀ σ, Reach P store₀ σ → Inv P σ := by
  intro σ hr
  induction hr with
  | init => exact Inv_init P store₀
  | next σ σ' _ htr ih => exact Inv_preserved P Hstart Hrev Huniq σ σ' htr ih

end Dispatch

/-- Claim C7: in every reachable scheduler state, each step has been
dispatched — its `execute` invoked — at most once, and any step that has
been invoked had (and, stores being persistent, still has) a materialised
column for every one of its dependencies; dispatch happens only through the
guarded call sites.  Hypotheses are the planner invariants: start steps
have no dependencies, `dependentPlans` is the reverse of `dependencies`,
and steps sharing an id share their dependency list. -/
theorem claim7_dispatch_once_ready (P : Dispatch.TPlan)
    (store₀ : Nat → Option (List Cell))
    (Hstart : ∀ s ∈ P.startSteps, s.dependencies = [] ∧ s ∈ P.steps)
    (Hrev : ∀ p ∈ P.steps, ∀ s ∈ P.steps, s.id ∈ p.dependentPlans →
      p.id ∈ s.dependencies)
    (Huniq : ∀ s ∈ P.steps, ∀ t ∈ P.steps, s.id = t.id →
      s.dependencies = t.dependencies)
    (σ : Dispatch.TState) (hreach : Dispatch.Reach P store₀ σ) :
    (∀ i, σ.invoked i ≤ 1)
    ∧ (∀ s ∈ P.steps, 1 ≤ σ.invoked s.id →
        ∀ d ∈ s.dependencies, (σ.store d).isSome = true) := by
  have hinv := Dispatch.Inv_reach P Hstart Hrev Huniq store₀ σ hreach
  exact ⟨hinv.1, hinv.2.2.2.2.2⟩

/-- Witness for C7 on the diamond plan, three transitions deep: the
top-level loop dispatches `A`, `A` completes publishing a column, and `A`'s
completion dispatches `B`; `B` has been invoked exactly once and its
dependency column is materialised. -/
theorem claim7_witness :
    Dispatch.w3.invoked 1 ≤ 1 ∧ (Dispatch.w3.store 0).isSome = true := by
  have h01 : Dispatch.Trans Dispatch.diamond Dispatch.w0 Dispatch.w1 :=
    Dispatch.Trans.start Dispatch.w0 Dispatch.dA (by decide) (by decide)
  have h12 : Dispatch.Trans Dispatch.diamond Dispatch.w1 Dispatch.w2 :=
    Dispatch.Trans.complete Dispatch.w1 Dispatch.dA (by decide) (by decide)
      [Cell.value 1]
  have h23 : Dispatch.Trans Dispatch.diamond Dispatch.w2 Dispatch.w3 :=
    Dispatch.Trans.dispatch Dispatch.w2 Dispatch.dA Dispatch.dB (by decide)
      (by decide) (by decide) (by decide) (by decide) (by decide)
  have hreach : Dispatch.Reach Dispatch.diamond (fun _ => none) Dispatch.w3 :=
    Dispatch.Reach.next _ _ (Dispatch.Reach.next _ _
      (Dispatch.Reach.next _ _ Dispatch.Reach.init h01) h12) h23
  have h := claim7_dispatch_once_ready Dispatch.diamond (fun _ => none)
    (by decide) (by decide) (by decide) Dispatch.w3 hreach
  exact ⟨h.1 1, h.2 Dispatch.dB (by decide) (by decide) 0 (by decide)⟩
